import Mathlib

/-!
Verification of the cardiogen batch QC pipeline scripts.

The development shallowly embeds the two orchestrator scripts of the
repository:

* `wgs_sequential_qc_pipeline.py` — the sequential download / FastQC /
  fastp / MultiQC pipeline with filesystem-probed resume and cleanup.
  The filesystem is modelled as a set (list up to membership) of file
  paths plus a set of created directories; external tools are modelled
  by an environment that maps each tool invocation to either a list of
  created files or a raised error, and every invocation is recorded in
  a call log.

* `scripts/run_pipeline.py` — the `BatchProcessor` class: per-sample
  processing with error capture, per-row persistence of batch results,
  tool verification, batch chunking, and the summary report.

A path is the list of its components, e.g.
`data/illumina_analysis/raw_fastq/SRR1` is
`["data", "illumina_analysis", "raw_fastq", "SRR1"]`.
-/

namespace Cardiogen

abbrev FPath := List String

/-- `listPre d p` is true when the component list `d` is an initial
segment of `p` (the model of one path lying below another). -/
def listPre : FPath → FPath → Bool
  | [], _ => true
  | _ :: _, [] => false
  | a :: as, b :: bs => if a = b then listPre as bs else false

/-- A path strictly below a directory: the directory is a proper initial
segment. -/
def under (d p : FPath) : Bool :=
  listPre d p && decide (d.length < p.length)

/-- A direct child of a directory (what a non-recursive `glob` can see). -/
def directChild (d p : FPath) : Bool :=
  listPre d p && decide (p.length = d.length + 1)

/-- A grandchild of a directory (what the pattern `*/*.html` sees). -/
def depthTwoChild (d p : FPath) : Bool :=
  listPre d p && decide (p.length = d.length + 2)

/-! ### String helpers

Kernel-reducible models of the Python string operations the scripts use
(`startswith` / `endswith` patterns of `glob`, `str.strip`,
`str.split(',')`, `str.replace`, `Path.stem`). -/

/-- Model of a `name*` glob component / `str.startswith`. -/
def strStarts (s pre : String) : Bool := pre.data.isPrefixOf s.data

/-- Model of a `*name` glob component / `str.endswith`. -/
def strEnds (s suf : String) : Bool := suf.data.isSuffixOf s.data

/-- Python `str.strip()` (whitespace removed from both ends). -/
def strStrip (s : String) : String :=
  ⟨((s.data.dropWhile Char.isWhitespace).reverse.dropWhile
      Char.isWhitespace).reverse⟩

/-- Python `str.split(',')`: split on every comma, keeping empty pieces. -/
def splitCommaAux : List Char → List Char → List (List Char)
  | [], acc => [acc.reverse]
  | c :: rest, acc =>
      if c = ',' then acc.reverse :: splitCommaAux rest []
      else splitCommaAux rest (c :: acc)

def splitComma (s : String) : List String :=
  (splitCommaAux s.data []).map fun l => ⟨l⟩

/-- Python `str.replace(pat, rep)` (all occurrences, left to right,
non-overlapping); the fuel argument is the input length. -/
def replaceAux (pat rep : List Char) : Nat → List Char → List Char
  | 0, l => l
  | _ + 1, [] => []
  | fuel + 1, c :: rest =>
      if pat ≠ [] ∧ pat.isPrefixOf (c :: rest) then
        rep ++ replaceAux pat rep fuel ((c :: rest).drop pat.length)
      else
        c :: replaceAux pat rep fuel rest

def strReplace (s pat rep : String) : String :=
  ⟨replaceAux pat.data rep.data s.data.length s.data⟩

/-- Python `pathlib.PurePath.stem`: the final component without its last
suffix (computed by cutting at the last dot of the reversed name). -/
def pyStem (name : String) : String :=
  let r := name.data.reverse
  if r.contains '.' then ⟨((r.dropWhile fun c => c ≠ '.').drop 1).reverse⟩
  else name

/-- Join a list of strings with a separator (Python `', '.join(...)`). -/
def joinSep (sep : String) : List String → String
  | [] => ""
  | [x] => x
  | x :: xs => x ++ sep ++ joinSep sep xs

/-! ### Filesystem-and-calls state

`St` is the world state threaded through the sequential pipeline: the
set of files on disk, the set of directories explicitly created, and
the log of external tool invocations. Lists are read up to membership
(a path is on disk iff it is a member). -/

/-- One external tool invocation of `wgs_sequential_qc_pipeline.py`,
with the arguments that determine its behavior. -/
inductive Call where
  | prefetch (srr : String) (outdir : FPath)
  | fasterqDump (sra : FPath) (outdir : FPath)
  | fastqc (outdir : FPath) (inputs : List FPath)
  | fastp (inFile outFile html json : FPath)
  | multiqc (indir outdir : FPath)
deriving DecidableEq

/-- Result of one external tool invocation: the files it created, or the
error it raised (`subprocess.run(..., check=True)` raising
`CalledProcessError`). -/
inductive ToolRes where
  | ok (created : List FPath)
  | err (msg : String)
deriving DecidableEq

/-- The external world: a deterministic assignment of a result to every
possible invocation. -/
def Env := Call → ToolRes

/-- World state: files on disk, directories created, invocation log. -/
structure St where
  files : List FPath
  dirs : List FPath
  calls : List Call
deriving DecidableEq

instance : Inhabited St := ⟨⟨[], [], []⟩⟩

def St.empty : St := ⟨[], [], []⟩

def addFiles (s : St) (ps : List FPath) : St :=
  { s with files := s.files ++ ps }

def logCall (s : St) (c : Call) : St :=
  { s with calls := s.calls ++ [c] }

/-- `Path.unlink()`. -/
def delFile (s : St) (p : FPath) : St :=
  { s with files := s.files.filter fun q => q ≠ p }

/-- `shutil.rmtree(d)`: removes every file below `d` and the directory
`d` itself together with its subdirectories. -/
def rmtree (s : St) (d : FPath) : St :=
  { s with
    files := s.files.filter fun p => ¬ under d p
    dirs := s.dirs.filter fun q => ¬ listPre d q }

/-- `d.mkdir(parents=True, exist_ok=True)`. -/
def mkdirP (s : St) (d : FPath) : St :=
  { s with dirs := s.dirs ++ [d] }

/-- `p.exists()` for a file path. -/
def fileExists (s : St) (p : FPath) : Bool := s.files.any fun q => q = p

/-- `d.exists()` for a directory path: explicitly created, or something
lives below it. -/
def dirExists (s : St) (d : FPath) : Bool :=
  (s.dirs.any fun q => q = d) || s.files.any fun p => under d p

/-- `sorted list(d.glob(pat))` for a non-recursive pattern: the direct
children of `d` whose final component matches. -/
def globFiles (s : St) (d : FPath) (pat : String → Bool) : List FPath :=
  s.files.filter fun p => directChild d p && pat (p.getLastD "")

/-- Non-emptiness of a glob, as the scripts use it in conditions. -/
def hasGlob (s : St) (d : FPath) (pat : String → Bool) : Bool :=
  s.files.any fun p => directChild d p && pat (p.getLastD "")

/-! ### `wgs_sequential_qc_pipeline.py`: configuration constants -/

def RAW_DIR : FPath := ["data", "illumina_analysis", "raw_fastq"]
def CLEAN_DIR : FPath := ["data", "illumina_analysis", "clean_fastq"]
def REPORT_DIR : FPath := ["data", "illumina_analysis", "qc_reports"]
def FASTQC_RAW_DIR : FPath := REPORT_DIR ++ ["fastqc_raw"]
def FASTQC_CLEAN_DIR : FPath := REPORT_DIR ++ ["fastqc_clean"]

/-- `Path.home()`: an arbitrary fixed location outside the data tree. -/
def HOME : FPath := ["home", "user"]

def sampleRawDir (srr : String) : FPath := RAW_DIR ++ [srr]
def sampleCleanDir (srr : String) : FPath := CLEAN_DIR ++ [srr]
def fastqcRawSampleDir (srr : String) : FPath := FASTQC_RAW_DIR ++ [srr]
def fastqcCleanSampleDir (srr : String) : FPath := FASTQC_CLEAN_DIR ++ [srr]

/-- The `{srr}/{srr}.sra` file below the sample's raw directory. -/
def sampleSraPath (srr : String) : FPath :=
  sampleRawDir srr ++ [srr, srr ++ ".sra"]

/-- The prefetch default location `~/ncbi/public/sra/{srr}.sra`. -/
def ncbiSraPath (srr : String) : FPath :=
  HOME ++ ["ncbi", "public", "sra", srr ++ ".sra"]

/-- Glob patterns used by the script. -/
def patFastqcHtml (n : String) : Bool := strEnds n "_fastqc.html"
def patFastqcZip (n : String) : Bool := strEnds n "_fastqc.zip"
def patRawFastq (srr : String) (n : String) : Bool :=
  strStarts n (srr ++ "_") && strEnds n ".fastq"
def patCleanFastq (srr : String) (n : String) : Bool :=
  strStarts n (srr ++ "_") && strEnds n ".clean.fastq"
def patTmp (n : String) : Bool := strEnds n ".tmp"
def patSra (n : String) : Bool := strEnds n ".sra"
def patHtml (n : String) : Bool := strEnds n ".html"
def patMultiqcReport (n : String) : Bool := n = "multiqc_report.html"

/-- `is_sample_processed(srr)`: both per-sample FastQC report
directories exist and each holds at least one `*_fastqc.html` and one
`*_fastqc.zip`. -/
def isSampleProcessed (s : St) (srr : String) : Bool :=
  (dirExists s (fastqcRawSampleDir srr) &&
   hasGlob s (fastqcRawSampleDir srr) patFastqcHtml &&
   hasGlob s (fastqcRawSampleDir srr) patFastqcZip) &&
  (dirExists s (fastqcCleanSampleDir srr) &&
   hasGlob s (fastqcCleanSampleDir srr) patFastqcHtml &&
   hasGlob s (fastqcCleanSampleDir srr) patFastqcZip)

/-- `find_existing_sra(srr)`. -/
def findExistingSra (s : St) (srr : String) : Option FPath :=
  if fileExists s (sampleSraPath srr) then some (sampleSraPath srr)
  else if fileExists s (ncbiSraPath srr) then some (ncbiSraPath srr)
  else none

/-- `find_existing_fastq(srr)`. -/
def findExistingFastq (s : St) (srr : String) : Option (List FPath) :=
  if dirExists s (sampleRawDir srr) then
    let fq := globFiles s (sampleRawDir srr) (patRawFastq srr)
    if fq.isEmpty then none else some fq
  else none

/-- The in-stage re-check before running FastQC on the raw FASTQ: only
the `.html` report is required (`raw_fastqc_done`). -/
def rawFastqcDone (s : St) (srr : String) : Bool :=
  dirExists s (fastqcRawSampleDir srr) &&
  hasGlob s (fastqcRawSampleDir srr) patFastqcHtml

/-- The in-stage re-check before running FastQC on the cleaned FASTQ
(`clean_fastqc_done`): again only the `.html` report is required. -/
def cleanFastqcDone (s : St) (srr : String) : Bool :=
  dirExists s (fastqcCleanSampleDir srr) &&
  hasGlob s (fastqcCleanSampleDir srr) patFastqcHtml

/-! ### `process_srr`: stage functions

The local mutable variables of `process_srr` (`fastq_files`,
`clean_fastq_files`, `sra_path`) are carried in a context record; the
`try` body is a chain of stage functions that either complete or raise
carrying the context at the raise point, mirroring Python exception
flow into the `except`/`finally` blocks. -/

structure Ctx where
  st : St
  fqs : List FPath
  cfqs : List FPath
  sraPath : FPath
deriving DecidableEq

/-- Result of the `try` body: normal completion or a raised exception
(with the context as of the raise point). -/
inductive BodyRes where
  | ok (c : Ctx)
  | raised (msg : String) (c : Ctx)
deriving DecidableEq

def BodyRes.ctx : BodyRes → Ctx
  | .ok c => c
  | .raised _ c => c

def BodyRes.andThen (r : BodyRes) (f : Ctx → BodyRes) : BodyRes :=
  match r with
  | .ok c => f c
  | .raised m c => .raised m c

/-- Stage 1: find an existing SRA file or `prefetch` it; raise if the
download fails or the expected file is still absent. -/
def stageFetch (env : Env) (srr : String) (c : Ctx) : BodyRes :=
  match findExistingSra c.st srr with
  | some p => .ok { c with sraPath := p }
  | none =>
      let s := mkdirP c.st (sampleRawDir srr)
      let call := Call.prefetch srr (sampleRawDir srr)
      let s := logCall s call
      match env call with
      | .err m => .raised m { c with st := s, sraPath := sampleSraPath srr }
      | .ok created =>
          let s := addFiles s created
          if fileExists s (sampleSraPath srr) then
            .ok { c with st := s, sraPath := sampleSraPath srr }
          else
            .raised "SRA not found" { c with st := s, sraPath := sampleSraPath srr }

/-- Stage 2: find existing FASTQ files or convert with `fasterq-dump`;
raise on tool failure or when no FASTQ file appears. -/
def stageConvert (env : Env) (srr : String) (c : Ctx) : BodyRes :=
  match findExistingFastq c.st srr with
  | some fq => .ok { c with fqs := fq }
  | none =>
      let s := mkdirP c.st (sampleRawDir srr)
      let call := Call.fasterqDump c.sraPath (sampleRawDir srr)
      let s := logCall s call
      match env call with
      | .err m => .raised m { c with st := s }
      | .ok created =>
          let s := addFiles s created
          let fq := globFiles s (sampleRawDir srr) (patRawFastq srr)
          if fq.isEmpty then .raised "FASTQ conversion failed" { c with st := s }
          else .ok { c with st := s, fqs := fq }

/-- Stage 3: remove the SRA file and the `{srr}` prefetch directory. -/
def stageRemoveSra (srr : String) (c : Ctx) : BodyRes :=
  let s := if fileExists c.st c.sraPath then delFile c.st c.sraPath else c.st
  let sraDir := sampleRawDir srr ++ [srr]
  let s := if dirExists s sraDir then rmtree s sraDir else s
  .ok { c with st := s }

/-- Stage 4: FastQC on the raw FASTQ, skipped when an `.html` report is
already present. -/
def stageRawQC (env : Env) (srr : String) (c : Ctx) : BodyRes :=
  if rawFastqcDone c.st srr then .ok c
  else
    let s := mkdirP c.st (fastqcRawSampleDir srr)
    let call := Call.fastqc (fastqcRawSampleDir srr) c.fqs
    let s := logCall s call
    match env call with
    | .err m => .raised m { c with st := s }
    | .ok created => .ok { c with st := addFiles s created }

/-- The fastp output file for one raw FASTQ file. -/
def fastpOutFile (srr : String) (fq : FPath) : FPath :=
  sampleCleanDir srr ++ [strReplace (fq.getLastD "") ".fastq" ".clean.fastq"]

def fastpHtmlFile (srr : String) (fq : FPath) : FPath :=
  REPORT_DIR ++ [srr ++ "_" ++ pyStem (fq.getLastD "") ++ "_fastp.html"]

def fastpJsonFile (srr : String) (fq : FPath) : FPath :=
  REPORT_DIR ++ [srr ++ "_" ++ pyStem (fq.getLastD "") ++ "_fastp.json"]

/-- Stage 5 loop body: run `fastp` on each raw FASTQ file unless its
output (or its html report) already exists. -/
def stageFastpLoop (env : Env) (srr : String) : List FPath → Ctx → BodyRes
  | [], c => .ok c
  | fq :: rest, c =>
      let outFq := fastpOutFile srr fq
      if fileExists c.st outFq || fileExists c.st (fastpHtmlFile srr fq) then
        let c :=
          if fileExists c.st outFq then { c with cfqs := c.cfqs ++ [outFq] }
          else c
        stageFastpLoop env srr rest c
      else
        let call := Call.fastp fq outFq (fastpHtmlFile srr fq) (fastpJsonFile srr fq)
        let s := logCall c.st call
        match env call with
        | .err m => .raised m { c with st := s }
        | .ok created =>
            stageFastpLoop env srr rest
              { c with st := addFiles s created, cfqs := c.cfqs ++ [outFq] }

/-- Stage 5: `mkdir` for the clean directory, then the fastp loop over
the raw FASTQ list. -/
def stageFastp (env : Env) (srr : String) (c : Ctx) : BodyRes :=
  stageFastpLoop env srr c.fqs { c with st := mkdirP c.st (sampleCleanDir srr) }

/-- Stage 6: if no clean FASTQ was recorded, pick up existing ones. -/
def stageCollectClean (srr : String) (c : Ctx) : BodyRes :=
  if c.cfqs.isEmpty then
    .ok { c with cfqs := globFiles c.st (sampleCleanDir srr) (patCleanFastq srr) }
  else .ok c

/-- `if fq.exists(): fq.unlink()` over a list of paths. -/
def unlinkExisting (s : St) (ps : List FPath) : St :=
  ps.foldl (fun s p => if fileExists s p then delFile s p else s) s

/-- Stage 7: delete the raw FASTQ files and clear the list. -/
def stageRemoveRaw (c : Ctx) : BodyRes :=
  .ok { c with st := unlinkExisting c.st c.fqs, fqs := [] }

/-- Stage 8: FastQC on the cleaned FASTQ, skipped when an `.html`
report is already present. -/
def stageCleanQC (env : Env) (srr : String) (c : Ctx) : BodyRes :=
  if cleanFastqcDone c.st srr then .ok c
  else
    let s := mkdirP c.st (fastqcCleanSampleDir srr)
    let call := Call.fastqc (fastqcCleanSampleDir srr) c.cfqs
    let s := logCall s call
    match env call with
    | .err m => .raised m { c with st := s }
    | .ok created => .ok { c with st := addFiles s created }

/-- Stage 9: delete the clean FASTQ files and clear the list. -/
def stageRemoveClean (c : Ctx) : BodyRes :=
  .ok { c with st := unlinkExisting c.st c.cfqs, cfqs := [] }

/-- The whole `try` body of `process_srr`. -/
def bodyRun (env : Env) (srr : String) (s : St) : BodyRes :=
  (stageFetch env srr ⟨s, [], [], []⟩).andThen
    (stageConvert env srr) |>.andThen
    (stageRemoveSra srr) |>.andThen
    (stageRawQC env srr) |>.andThen
    (stageFastp env srr) |>.andThen
    (stageCollectClean srr) |>.andThen
    stageRemoveRaw |>.andThen
    (stageCleanQC env srr) |>.andThen
    stageRemoveClean

/-- `if d.exists(): shutil.rmtree(d)`. -/
def rmtreeIf (s : St) (d : FPath) : St :=
  if dirExists s d then rmtree s d else s

/-- `if d.exists(): for f in d.glob(pat): f.unlink()`. -/
def unlinkGlobIf (s : St) (d : FPath) (pat : String → Bool) : St :=
  if dirExists s d then unlinkExisting s (globFiles s d pat) else s

/-- The `finally` block: delete leftover `*.tmp` / `*.sra` files, then
remove the sample's raw and clean directories recursively. -/
def finalCleanup (srr : String) (s : St) : St :=
  rmtreeIf
    (rmtreeIf
      (unlinkGlobIf (unlinkGlobIf s (sampleRawDir srr) patTmp)
        (sampleRawDir srr) patSra)
      (sampleRawDir srr))
    (sampleCleanDir srr)

/-- Terminal outcome of `process_srr` for one sample. -/
inductive Outcome where
  | success
  | failure (msg : String)
  | skipped
deriving DecidableEq

/-- `process_srr(srr)`: skip immediately when the sample probes as
processed; otherwise run the body, on exception delete the recorded
FASTQ files (the `except` block), and in all cases run the `finally`
cleanup. -/
def processSrr (env : Env) (s : St) (srr : String) : St × Outcome :=
  if isSampleProcessed s srr then (s, .skipped)
  else
    match bodyRun env srr s with
    | .ok c => (finalCleanup srr c.st, .success)
    | .raised m c =>
        (finalCleanup srr (unlinkExisting c.st (c.fqs ++ c.cfqs)), .failure m)

/-! ### Module-level orchestration of `wgs_sequential_qc_pipeline.py` -/

/-- The module prologue: create all five configured directories. -/
def mkBaseDirs (s : St) : St :=
  [RAW_DIR, CLEAN_DIR, REPORT_DIR, FASTQC_RAW_DIR, FASTQC_CLEAN_DIR].foldl mkdirP s

/-- The per-sample phase: partition the input list by
`is_sample_processed` against the starting state, then run
`process_srr` over the unprocessed ones in order. -/
def processAll (env : Env) (srrs : List String) (s : St) : St :=
  (srrs.filter fun srr => ¬ isSampleProcessed s srr).foldl
    (fun t srr => (processSrr env t srr).1) s

/-- The `*//*.html` condition guarding a global MultiQC run: some
report `.html` two levels below the FastQC directory. -/
def mqCond (s : St) (srcDir : FPath) : Bool :=
  s.files.any fun p => depthTwoChild srcDir p && patHtml (p.getLastD "")

/-- The rename loop over `glob('multiqc_report.html')`: each match is
renamed onto the fixed global report name. -/
def renameAll (out : FPath) (ms : List FPath) (s : St) : St :=
  ms.foldl (fun s f => addFiles (delFile s f) [out]) s

/-- One half of the global MultiQC phase (`--force` regeneration into a
temporary directory, rename of the report, removal of the temporary
directory). A tool failure propagates out of the module (no handler). -/
def mqHalf (env : Env) (srcDir : FPath) (tmpName outName : String) (s : St) :
    Except (String × St) St :=
  if mqCond s srcDir then
    let tmp := REPORT_DIR ++ [tmpName]
    let s := mkdirP s tmp
    let call := Call.multiqc srcDir tmp
    let s := logCall s call
    match env call with
    | .err m => .error (m, s)
    | .ok created =>
        let s := addFiles s created
        let s := renameAll (REPORT_DIR ++ [outName]) (globFiles s tmp patMultiqcReport) s
        .ok (rmtree s tmp)
  else .ok s

/-- One full run of the script over a sample list: make the base
directories, run the per-sample phase, then regenerate both global
MultiQC reports. -/
def runOnce (env : Env) (srrs : List String) (s : St) : Except (String × St) St := do
  let s := mkBaseDirs s
  let s := processAll env srrs s
  let s ← mqHalf env FASTQC_RAW_DIR "multiqc_raw_global" "multiqc_raw_global.html" s
  mqHalf env FASTQC_CLEAN_DIR "multiqc_clean_global" "multiqc_clean_global.html" s

/-! ### `scripts/run_pipeline.py`: the `BatchProcessor`

The per-sample filesystem footprint of `process_sample` lives in a
batch-scoped temporary directory and is not shared between samples, so
this model tracks the per-sample result record and the external calls
performed; tool behavior is an environment of deterministic outcome
functions. `freeSpaceBytes` models the free disk space of the working
filesystem — the script never reads it. -/

inductive BStatus where
  | success
  | failed
deriving DecidableEq

/-- The FastQC metrics record built by `extract_fastqc_metrics`. -/
structure Metrics where
  filename : String
  totalSequences : Nat
  sequenceLength : String
  gcContent : Nat
deriving DecidableEq

/-- Outcome of the `fasterq-dump` invocation in `process_sample`:
either the names of the files it created in the sample's FASTQ
directory, or a `CalledProcessError` carrying captured stderr text. -/
inductive BToolRes where
  | ok (names : List String)
  | err (stderr : String)
deriving DecidableEq

/-- The external world of `BatchProcessor`. -/
structure BEnv where
  /-- Outcome of `fasterq-dump <acc>` for a given accession. -/
  fasterq : String → BToolRes
  /-- Size in MB reported by `stat` for a FASTQ file of an accession. -/
  fileSizeMb : String → String → Nat
  /-- Whether the `fastqc` invocation for a file succeeds (a failure is
  caught inside `run_fastqc`, which then returns an empty record). -/
  fastqcOk : String → String → Bool
  /-- Metrics extracted from `fastqc_data.txt` for a file. -/
  fastqcMetrics : String → String → Metrics
  /-- When set, an unexpected exception (with this message, as
  `str(e)`) raised while copying QC reports to permanent storage;
  caught by the generic `except Exception` handler. -/
  copyErr : String → Option String
  /-- Free disk space of the working filesystem, in bytes. -/
  freeSpaceBytes : Nat

/-- A `SampleResult` record as built by `process_sample` (the
`metadata` echo and float sizes are elided; a `none` metrics entry is
the empty dict returned by `run_fastqc` on a caught FastQC failure). -/
structure BSampleResult where
  accession : String
  status : BStatus
  error : Option String
  metrics : List (Option Metrics)
  fastqCount : Option Nat
  fastqSizeMb : Option Nat
deriving DecidableEq

def initResult (acc : String) : BSampleResult :=
  { accession := acc, status := .failed, error := none, metrics := []
    fastqCount := none, fastqSizeMb := none }

/-- `process_sample(accession, ...)`: returns the result record and the
names of the external tools invoked, in order. -/
def processSample (env : BEnv) (acc : String) : BSampleResult × List String :=
  match env.fasterq acc with
  | .err stderr =>
      ({ initResult acc with
          error := some ("Command failed: " ++
            (if stderr.isEmpty then "Unknown error" else stderr)) },
        ["fasterq-dump"])
  | .ok names =>
      let fastqNames := names.filter fun n =>
        strStarts n acc && strEnds n ".fastq"
      if fastqNames.isEmpty then
        ({ initResult acc with error := some "No FASTQ files generated" },
          ["fasterq-dump"])
      else
        let r := { initResult acc with
          fastqCount := some fastqNames.length
          fastqSizeMb := some (fastqNames.map (env.fileSizeMb acc)).sum }
        let r := { r with
          metrics := fastqNames.map fun n =>
            if env.fastqcOk acc n then some (env.fastqcMetrics acc n) else none }
        let calls := "fasterq-dump" :: fastqNames.map fun _ => "fastqc"
        match env.copyErr acc with
        | some msg => ({ r with error := some msg }, calls)
        | none => ({ r with status := .success }, calls)

/-- `row['run_accession'].strip().split(',')` with per-entry strip and
the `if accession:` guard. -/
def rowAccessions (runAccession : String) : List String :=
  ((splitComma (strStrip runAccession)).map strStrip).filter
    fun a => ¬ a.isEmpty

/-- The results produced by one CSV row of a batch. -/
def rowResults (env : BEnv) (row : String) : List BSampleResult :=
  (rowAccessions row).map fun a => (processSample env a).1

/-- All results of a batch, in processing order. -/
def batchResults (env : BEnv) (rows : List String) : List BSampleResult :=
  rows.foldr (fun row acc => rowResults env row ++ acc) []

/-- The sequence of snapshots written to the batch result file by
`save_batch_results` — one full rewrite after every row, each holding
every result accumulated so far. -/
def batchWrites (env : BEnv) : List String → List BSampleResult →
    List (List BSampleResult)
  | [], _ => []
  | row :: rest, acc =>
      (acc ++ rowResults env row) :: batchWrites env rest (acc ++ rowResults env row)

/-- The batch result file content after an abrupt termination that
completed exactly `i` rows (the crash may additionally have processed a
prefix of row `i` without reaching that row's save). -/
def fileAfterCrash (env : BEnv) (rows : List String) (i : Nat) :
    Option (List BSampleResult) :=
  if i = 0 then none else (batchWrites env rows []).get? (i - 1)

/-- The results completed when the run is cut after `i` full rows plus
the first `j` accessions of row `i`. -/
def completedAtCrash (env : BEnv) (rows : List String) (i j : Nat) :
    List BSampleResult :=
  batchResults env (rows.take i) ++
    ((rowAccessions (rows.getD i "")).take j).map fun a => (processSample env a).1

/-- `BatchProcessor.verify_tools`: probe the three required tools, then
raise a single `RuntimeError` listing every missing one. -/
def requiredTools : List String := ["prefetch", "fasterq-dump", "fastqc"]

def verifyTools (avail : String → Bool) : Except String Unit :=
  let missing := requiredTools.filter fun t => ¬ avail t
  if missing.isEmpty then .ok ()
  else .error ("Missing tools: " ++ joinSep ", " missing)

/-- `main`'s batch arithmetic: `(len(df) + batch_size - 1) // batch_size`. -/
def numBatches (len batchSize : Nat) : Nat := (len + batchSize - 1) / batchSize

/-- `df.iloc[batch_num*B : min(batch_num*B + B, len)]` over all batch
numbers. -/
def batchChunks (batchSize : Nat) (rows : List String) : List (List String) :=
  (List.range (numBatches rows.length batchSize)).map fun i =>
    (rows.drop (i * batchSize)).take batchSize

/-- The whole `main` flow relevant to tool verification: constructing
`BatchProcessor` verifies tools and aborts the run before any batch is
processed; otherwise every batch is processed in order. -/
def runPipelineMain (avail : String → Bool) (env : BEnv) (rows : List String)
    (batchSize : Nat) : Except String (List BSampleResult) :=
  match verifyTools avail with
  | .error m => .error m
  | .ok _ =>
      .ok (((batchChunks batchSize rows).map (batchResults env)).foldr
        (· ++ ·) [])

/-- What `generate_summary_report` does, in evaluation order: the CSV
summary is written first; the success-rate f-string divides by the
total and raises `ZeroDivisionError` when the result list is empty, in
which case the text report is never written. -/
structure SummaryOutcome where
  csvWritten : Bool
  csvRows : List String
  reportWritten : Bool
  zeroDivisionRaised : Bool
deriving DecidableEq

def generateSummaryReport (results : List BSampleResult) : SummaryOutcome :=
  let total := results.length
  let csvRows := (results.filter fun r => r.status = .success).map
    fun r => r.accession
  if total = 0 then
    { csvWritten := true, csvRows := csvRows, reportWritten := false
      zeroDivisionRaised := true }
  else
    { csvWritten := true, csvRows := csvRows, reportWritten := true
      zeroDivisionRaised := false }

/-! ### Invariants used to reason about `process_srr` -/

/-- Every file below the QC report tree present in `s` is still present
in `s'` (the pipeline never deletes report artifacts). -/
def reportPreserved (s s' : St) : Prop :=
  ∀ p, listPre REPORT_DIR p = true → p ∈ s.files → p ∈ s'.files

/-- Invariant of the local variables of `process_srr`: the recorded raw
FASTQ paths live below the sample's raw directory, the recorded clean
FASTQ paths below its clean directory, and `sra_path` (when set) is one
of the two probed SRA locations. -/
def ctxInv (srr : String) (c : Ctx) : Prop :=
  (∀ p ∈ c.fqs, under (sampleRawDir srr) p = true) ∧
  (∀ p ∈ c.cfqs, under (sampleCleanDir srr) p = true) ∧
  (c.sraPath = [] ∨ c.sraPath = sampleSraPath srr ∨ c.sraPath = ncbiSraPath srr)

/-- What each stage of the `try` body maintains: the context invariant,
and preservation of the QC report tree. -/
def stepOK (srr : String) (c : Ctx) (r : BodyRes) : Prop :=
  ctxInv srr r.ctx ∧ reportPreserved c.st r.ctx.st

/-- Confinement of MultiQC: whatever a `multiqc` invocation creates
lies below the output directory passed with `-o`. -/
def MqConfined (env : Env) : Prop :=
  ∀ indir outdir created,
    env (Call.multiqc indir outdir) = .ok created →
    ∀ p ∈ created, under outdir p = true

def isMultiqcCall : Call → Bool
  | .multiqc _ _ => true
  | _ => false

/-! ### Concrete environments and states used in witnesses and
counterexamples -/

/-- An external world in which every tool succeeds and produces exactly
the conventional output files (for the single sample `SRR1`). -/
def env0 : Env := fun c =>
  match c with
  | .prefetch srr outdir => .ok [outdir ++ [srr, srr ++ ".sra"]]
  | .fasterqDump _ outdir => .ok [outdir ++ ["SRR1_1.fastq"]]
  | .fastqc outdir _ =>
      .ok [outdir ++ ["SRR1_1_fastqc.html"], outdir ++ ["SRR1_1_fastqc.zip"]]
  | .fastp _ o h j => .ok [o, h, j]
  | .multiqc _ outdir => .ok [outdir ++ ["multiqc_report.html"]]

/-- State after one full successful run of the script on `["SRR1"]`
from an empty filesystem. -/
def st1 : St := (runOnce env0 ["SRR1"] St.empty).toOption.getD default

/-- State after running the script a second time on the same input. -/
def st2 : St := (runOnce env0 ["SRR1"] st1).toOption.getD default

/-- The four FastQC report files that make `SRR1` probe as processed. -/
def reportFiles : List FPath :=
  [fastqcRawSampleDir "SRR1" ++ ["SRR1_1_fastqc.html"],
   fastqcRawSampleDir "SRR1" ++ ["SRR1_1_fastqc.zip"],
   fastqcCleanSampleDir "SRR1" ++ ["SRR1_1_fastqc.html"],
   fastqcCleanSampleDir "SRR1" ++ ["SRR1_1_fastqc.zip"]]

/-- A fully processed sample. -/
def fsProcessed : St := ⟨reportFiles, [], []⟩

/-- A partially written report directory: the raw FastQC `.html` is
present but its paired `.zip` is absent. -/
def fsHtmlOnly : St :=
  ⟨[fastqcRawSampleDir "SRR1" ++ ["SRR1_1_fastqc.html"]], [], []⟩

/-- The state left by a crash between the clean FastQC stage and the
clean-FASTQ deletion: complete reports plus a leftover filtered FASTQ
file. -/
def leftoverFastq : FPath := sampleCleanDir "SRR1" ++ ["SRR1_1.clean.fastq"]

def fsLeftover : St := ⟨reportFiles ++ [leftoverFastq], [], []⟩

/-- A batch-processor world where `fasterq-dump` succeeds with one
FASTQ per accession, QC succeeds, and no unexpected exception occurs —
while the working filesystem has zero bytes free. -/
def benv0 : BEnv :=
  { fasterq := fun acc => .ok [acc ++ "_1.fastq"]
    fileSizeMb := fun _ _ => 1
    fastqcOk := fun _ _ => true
    fastqcMetrics := fun _ n => ⟨n, 1000, "150", 42⟩
    copyErr := fun _ => none
    freeSpaceBytes := 0 }

/-- Like `benv0`, but copying the QC reports of accession `A` raises an
unexpected exception whose `str()` is the empty string
(`raise Exception("")`). -/
def benvEmptyMsg : BEnv := { benv0 with copyErr := fun _ => some "" }

/-- Like `benv0`, but `fasterq-dump` fails for accession `A` with
captured stderr text. -/
def benvToolFail : BEnv :=
  { benv0 with fasterq := fun acc =>
      if acc = "A" then .err "fasterq-dump error" else benv0.fasterq acc }

/-- Tool availability with the three verified tools present and both
`fastp` and `multiqc` absent from `PATH`. -/
def availNoFastp (t : String) : Bool :=
  t = "prefetch" || t = "fasterq-dump" || t = "fastqc"

/-! ## Theorems

### Path and state basics -/

theorem listPre_iff (d p : FPath) : listPre d p = true ↔ ∃ t, p = d ++ t := by
  induction d generalizing p with
  | nil => simp [listPre]
  | cons a as ih =>
    cases p with
    | nil => simp [listPre]
    | cons b bs =>
      constructor
      · intro h
        simp only [listPre] at h
        split at h
        · obtain ⟨t, ht⟩ := (ih bs).1 h
          exact ⟨t, by simp_all⟩
        · exact absurd h (by simp)
      · rintro ⟨t, ht⟩
        simp only [List.cons_append, List.cons_inj_right] at ht
        obtain ⟨rfl, rfl⟩ := List.cons_eq_cons.mp ht
        simp only [listPre, if_pos rfl]
        exact (ih _).2 ⟨t, rfl⟩

theorem listPre_append (d t : FPath) : listPre d (d ++ t) = true :=
  (listPre_iff d (d ++ t)).2 ⟨t, rfl⟩

theorem listPre_refl (d : FPath) : listPre d d = true := by
  simpa using listPre_append d []

theorem listPre_trans {a b c : FPath} (h1 : listPre a b = true)
    (h2 : listPre b c = true) : listPre a c = true := by
  obtain ⟨t1, rfl⟩ := (listPre_iff a b).1 h1
  obtain ⟨t2, rfl⟩ := (listPre_iff (a ++ t1) c).1 h2
  rw [List.append_assoc]
  exact listPre_append a (t1 ++ t2)

theorem under_append_cons (d : FPath) (x : String) (t : FPath) :
    under d (d ++ x :: t) = true := by
  simp [under, listPre_append, List.length_append]

theorem under_append_singleton (d : FPath) (x : String) :
    under d (d ++ [x]) = true :=
  under_append_cons d x []

theorem under_trans_underEq {a b p : FPath} (h1 : listPre a b = true)
    (h2 : under b p = true) : under a p = true := by
  simp only [under, Bool.and_eq_true, decide_eq_true_eq] at h2 ⊢
  refine ⟨listPre_trans h1 h2.1, ?_⟩
  obtain ⟨t, rfl⟩ := (listPre_iff a b).1 h1
  have := h2.2
  simp only [List.length_append] at this ⊢
  omega

theorem directChild_under {d p : FPath} (h : directChild d p = true) :
    under d p = true := by
  simp only [directChild, under, Bool.and_eq_true, decide_eq_true_eq] at h ⊢
  exact ⟨h.1, by omega⟩

theorem under_length {d p : FPath} (h : under d p = true) :
    d.length < p.length := by
  simp only [under, Bool.and_eq_true, decide_eq_true_eq] at h
  exact h.2

/-- Two directories on diverging component lists have disjoint subtrees. -/
theorem under_disjoint {c : FPath} {x y : String} (hxy : x ≠ y) (t1 t2 : FPath)
    {p : FPath} (h1 : listPre (c ++ x :: t1) p = true) :
    listPre (c ++ y :: t2) p = false := by
  obtain ⟨r, rfl⟩ := (listPre_iff _ _).1 h1
  by_contra hne
  rw [Bool.not_eq_false] at hne
  obtain ⟨s, hs⟩ := (listPre_iff _ _).1 hne
  rw [List.append_assoc, List.append_assoc] at hs
  have := List.append_cancel_left hs.symm
  simp only [List.cons_append, List.cons_eq_cons] at this
  exact hxy this.1.symm

@[simp] theorem mem_addFiles (s : St) (ps : List FPath) (p : FPath) :
    p ∈ (addFiles s ps).files ↔ p ∈ s.files ∨ p ∈ ps := by
  simp [addFiles]

@[simp] theorem mem_delFile (s : St) (q p : FPath) :
    p ∈ (delFile s q).files ↔ p ∈ s.files ∧ p ≠ q := by
  simp [delFile]

@[simp] theorem mem_rmtree (s : St) (d p : FPath) :
    p ∈ (rmtree s d).files ↔ p ∈ s.files ∧ ¬ under d p = true := by
  simp [rmtree]

@[simp] theorem mem_rmtree_dirs (s : St) (d q : FPath) :
    q ∈ (rmtree s d).dirs ↔ q ∈ s.dirs ∧ ¬ listPre d q = true := by
  simp [rmtree]

@[simp] theorem mem_mkdirP_dirs (s : St) (d q : FPath) :
    q ∈ (mkdirP s d).dirs ↔ q ∈ s.dirs ∨ q = d := by
  simp [mkdirP]

@[simp] theorem mkdirP_files (s : St) (d : FPath) :
    (mkdirP s d).files = s.files := rfl

@[simp] theorem logCall_files (s : St) (c : Call) :
    (logCall s c).files = s.files := rfl

@[simp] theorem logCall_dirs (s : St) (c : Call) :
    (logCall s c).dirs = s.dirs := rfl

@[simp] theorem addFiles_dirs (s : St) (ps : List FPath) :
    (addFiles s ps).dirs = s.dirs := rfl

@[simp] theorem delFile_dirs (s : St) (p : FPath) :
    (delFile s p).dirs = s.dirs := rfl

@[simp] theorem mkdirP_calls (s : St) (d : FPath) :
    (mkdirP s d).calls = s.calls := rfl

@[simp] theorem addFiles_calls (s : St) (ps : List FPath) :
    (addFiles s ps).calls = s.calls := rfl

@[simp] theorem delFile_calls (s : St) (p : FPath) :
    (delFile s p).calls = s.calls := rfl

@[simp] theorem rmtree_calls (s : St) (d : FPath) :
    (rmtree s d).calls = s.calls := rfl

@[simp] theorem logCall_calls (s : St) (c : Call) :
    (logCall s c).calls = s.calls ++ [c] := rfl

theorem fileExists_iff (s : St) (p : FPath) :
    fileExists s p = true ↔ p ∈ s.files := by
  simp [fileExists]

theorem hasGlob_iff (s : St) (d : FPath) (pat : String → Bool) :
    hasGlob s d pat = true ↔
      ∃ p ∈ s.files, directChild d p = true ∧ pat (p.getLastD "") = true := by
  simp [hasGlob]

theorem mem_globFiles (s : St) (d : FPath) (pat : String → Bool) (p : FPath) :
    p ∈ globFiles s d pat ↔
      p ∈ s.files ∧ directChild d p = true ∧ pat (p.getLastD "") = true := by
  simp [globFiles]

theorem globFiles_under {s : St} {d : FPath} {pat : String → Bool} {p : FPath}
    (h : p ∈ globFiles s d pat) : under d p = true := by
  rw [mem_globFiles] at h
  exact directChild_under h.2.1

/-- `dirExists` is false only when nothing lives below the directory. -/
theorem not_dirExists_no_files {s : St} {d : FPath} (h : dirExists s d = false)
    {p : FPath} (hp : p ∈ s.files) : under d p = false := by
  simp only [dirExists, Bool.or_eq_false_iff, List.any_eq_false] at h
  simpa using h.2 p hp

/-! ### The skip path of `process_srr` -/

/-- A sample that probes as processed is returned untouched before the
`try`/`finally` body. -/
theorem processSrr_of_processed (env : Env) (s : St) (srr : String)
    (h : isSampleProcessed s srr = true) :
    processSrr env s srr = (s, .skipped) := by
  simp [processSrr, h]

/-- C10: for every sample that probes as already fully processed at
entry, `process_srr` returns immediately before entering its
`try`/`finally` body, so on the skip path the world state — files,
directories and the call log — is returned unchanged: nothing belonging
to the sample (including its QC report directories) is created,
modified, or deleted, and no external tool runs. -/
theorem wgs_skip_path_is_pure (env : Env) (s : St) (srr : String)
    (h : isSampleProcessed s srr = true) :
    processSrr env s srr = (s, Outcome.skipped) :=
  processSrr_of_processed env s srr h

/-- Witness for the skip-path theorem at a concrete processed sample. -/
theorem wgs_skip_path_is_pure_witness :
    isSampleProcessed fsProcessed "SRR1" = true ∧
      processSrr env0 fsProcessed "SRR1" = (fsProcessed, Outcome.skipped) :=
  ⟨by decide, wgs_skip_path_is_pure env0 fsProcessed "SRR1" (by decide)⟩

/-! ### The completeness predicates (C5) -/

theorem hasGlob_dirExists {s : St} {d : FPath} {pat : String → Bool}
    (h : hasGlob s d pat = true) : dirExists s d = true := by
  obtain ⟨p, hp, hc, _⟩ := (hasGlob_iff s d pat).1 h
  simp only [dirExists, Bool.or_eq_true, List.any_eq_true]
  exact Or.inr ⟨p, hp, directChild_under hc⟩

/-- C5 (amended): the sample-level resume predicate
`is_sample_processed` requires both companion artifacts — it holds iff
each of the two per-sample FastQC report directories holds both a
`*_fastqc.html` and a `*_fastqc.zip` — but the in-stage re-checks
`raw_fastqc_done` and `clean_fastqc_done` inside `process_srr` require
only the `.html` report, so a directory holding an `.html` without its
paired `.zip` is treated as not done by the resume probe while the
in-stage checks treat that stage as done. -/
theorem completeness_predicates_characterization (s : St) (srr : String) :
    (isSampleProcessed s srr = true ↔
      (hasGlob s (fastqcRawSampleDir srr) patFastqcHtml = true ∧
       hasGlob s (fastqcRawSampleDir srr) patFastqcZip = true ∧
       hasGlob s (fastqcCleanSampleDir srr) patFastqcHtml = true ∧
       hasGlob s (fastqcCleanSampleDir srr) patFastqcZip = true)) ∧
    (rawFastqcDone s srr = true ↔
      hasGlob s (fastqcRawSampleDir srr) patFastqcHtml = true) ∧
    (cleanFastqcDone s srr = true ↔
      hasGlob s (fastqcCleanSampleDir srr) patFastqcHtml = true) := by
  refine ⟨?_, ?_, ?_⟩
  · constructor
    · intro h
      simp only [isSampleProcessed, Bool.and_eq_true] at h
      exact ⟨h.1.1.2, h.1.2, h.2.1.2, h.2.2⟩
    · rintro ⟨h1, h2, h3, h4⟩
      simp only [isSampleProcessed, Bool.and_eq_true]
      exact ⟨⟨⟨hasGlob_dirExists h1, h1⟩, h2⟩, ⟨hasGlob_dirExists h3, h3⟩, h4⟩
  · constructor
    · intro h
      simp only [rawFastqcDone, Bool.and_eq_true] at h
      exact h.2
    · intro h
      simp only [rawFastqcDone, Bool.and_eq_true]
      exact ⟨hasGlob_dirExists h, h⟩
  · constructor
    · intro h
      simp only [cleanFastqcDone, Bool.and_eq_true] at h
      exact h.2
    · intro h
      simp only [cleanFastqcDone, Bool.and_eq_true]
      exact ⟨hasGlob_dirExists h, h⟩

/-- C5 counterexample: a partially written raw FastQC directory with an
`.html` but no `.zip` is classified as done by the in-stage check
`raw_fastqc_done` (so not every completeness check requires both
companion artifacts), even though the sample-level probe rejects it. -/
theorem completeness_html_only_counterexample :
    rawFastqcDone fsHtmlOnly "SRR1" = true ∧
      hasGlob fsHtmlOnly (fastqcRawSampleDir "SRR1") patFastqcZip = false ∧
      isSampleProcessed fsHtmlOnly "SRR1" = false := by
  refine ⟨by decide, by decide, by decide⟩

/-! ### Disjointness of the data subtrees -/

theorem under_sampleRaw_not_report {srr : String} {p : FPath}
    (h : under (sampleRawDir srr) p = true) :
    listPre REPORT_DIR p = false := by
  simp only [under, Bool.and_eq_true] at h
  exact under_disjoint (c := ["data", "illumina_analysis"])
    (x := "raw_fastq") (y := "qc_reports") (by decide) [srr] [] h.1

theorem under_sampleClean_not_report {srr : String} {p : FPath}
    (h : under (sampleCleanDir srr) p = true) :
    listPre REPORT_DIR p = false := by
  simp only [under, Bool.and_eq_true] at h
  exact under_disjoint (c := ["data", "illumina_analysis"])
    (x := "clean_fastq") (y := "qc_reports") (by decide) [srr] [] h.1

theorem ncbiSra_not_report (srr : String) :
    listPre REPORT_DIR (ncbiSraPath srr) = false := by
  exact under_disjoint (c := []) (x := "home") (y := "data") (by decide)
    (["user", "ncbi", "public", "sra", srr ++ ".sra"]) ["illumina_analysis", "qc_reports"]
    (listPre_refl _)

theorem sampleSraPath_under_raw (srr : String) :
    under (sampleRawDir srr) (sampleSraPath srr) = true :=
  under_append_cons (sampleRawDir srr) srr [srr ++ ".sra"]

theorem sraDir_listPre (srr : String) :
    listPre (sampleRawDir srr) (sampleRawDir srr ++ [srr]) = true :=
  listPre_append _ _

/-! ### Report preservation combinators -/

theorem reportPreserved_refl (s : St) : reportPreserved s s :=
  fun _ _ hp => hp

theorem reportPreserved_trans {a b c : St} (h1 : reportPreserved a b)
    (h2 : reportPreserved b c) : reportPreserved a c :=
  fun p hr hp => h2 p hr (h1 p hr hp)

theorem reportPreserved_of_files_eq {s s' : St} (h : s'.files = s.files) :
    reportPreserved s s' :=
  fun _ _ hp => h ▸ hp

theorem reportPreserved_addFiles (s : St) (ps : List FPath) :
    reportPreserved s (addFiles s ps) :=
  fun p _ hp => (mem_addFiles s ps p).2 (Or.inl hp)

theorem reportPreserved_delFile {q : FPath} (hq : listPre REPORT_DIR q = false)
    (s : St) : reportPreserved s (delFile s q) := by
  intro p hr hp
  refine (mem_delFile s q p).2 ⟨hp, ?_⟩
  rintro rfl
  rw [hr] at hq
  exact Bool.true_eq_false.mp hq

theorem reportPreserved_rmtree {d : FPath}
    (hd : ∀ p, under d p = true → listPre REPORT_DIR p = false) (s : St) :
    reportPreserved s (rmtree s d) := by
  intro p hr hp
  refine (mem_rmtree s d p).2 ⟨hp, fun hu => ?_⟩
  rw [hd p hu] at hr
  exact Bool.false_eq_true.mp hr

theorem unlinkExisting_cons (s : St) (q : FPath) (rest : List FPath) :
    unlinkExisting s (q :: rest) =
      unlinkExisting (if fileExists s q then delFile s q else s) rest := rfl

theorem unlinkExisting_nil (s : St) : unlinkExisting s [] = s := rfl

theorem reportPreserved_unlinkExisting {ps : List FPath}
    (hps : ∀ p ∈ ps, listPre REPORT_DIR p = false) (s : St) :
    reportPreserved s (unlinkExisting s ps) := by
  induction ps generalizing s with
  | nil => exact reportPreserved_refl s
  | cons q rest ih =>
    rw [unlinkExisting_cons]
    refine reportPreserved_trans (b := if fileExists s q then delFile s q else s)
      ?_ (ih (fun p hp => hps p (List.mem_cons_of_mem q hp)) _)
    split
    · exact reportPreserved_delFile (hps q (List.mem_cons_self q rest)) s
    · exact reportPreserved_refl s

theorem unlinkExisting_files_subset (ps : List FPath) (s : St) :
    ∀ p ∈ (unlinkExisting s ps).files, p ∈ s.files := by
  induction ps generalizing s with
  | nil => exact fun p hp => hp
  | cons q rest ih =>
    intro p hp
    rw [unlinkExisting_cons] at hp
    have := ih _ p hp
    split at this
    · exact ((mem_delFile s q p).1 this).1
    · exact this

theorem rmtreeIf_no_under (s : St) (d : FPath) :
    ∀ p ∈ (rmtreeIf s d).files, under d p = false := by
  intro p hp
  unfold rmtreeIf at hp
  split at hp
  · have := ((mem_rmtree s d p).1 hp).2
    exact Bool.not_eq_true _ |>.mp this
  · next h => exact not_dirExists_no_files (Bool.not_eq_true _ |>.mp h) hp

theorem rmtreeIf_files_subset (s : St) (d : FPath) :
    ∀ p ∈ (rmtreeIf s d).files, p ∈ s.files := by
  intro p hp
  unfold rmtreeIf at hp
  split at hp
  · exact ((mem_rmtree s d p).1 hp).1
  · exact hp

theorem reportPreserved_rmtreeIf {d : FPath}
    (hd : ∀ p, under d p = true → listPre REPORT_DIR p = false) (s : St) :
    reportPreserved s (rmtreeIf s d) := by
  unfold rmtreeIf
  split
  · exact reportPreserved_rmtree hd s
  · exact reportPreserved_refl s

theorem unlinkGlobIf_files_subset (s : St) (d : FPath) (pat : String → Bool) :
    ∀ p ∈ (unlinkGlobIf s d pat).files, p ∈ s.files := by
  intro p hp
  unfold unlinkGlobIf at hp
  split at hp
  · exact unlinkExisting_files_subset _ s p hp
  · exact hp

theorem reportPreserved_unlinkGlobIf (srr : String) (s : St)
    (pat : String → Bool) :
    reportPreserved s (unlinkGlobIf s (sampleRawDir srr) pat) := by
  unfold unlinkGlobIf
  split
  · exact reportPreserved_unlinkExisting
      (fun p hp => under_sampleRaw_not_report (globFiles_under hp)) s
  · exact reportPreserved_refl s

/-! ### The `finally` block -/

/-- After the `finally` cleanup no file remains below the sample's raw
or clean directory, whatever the incoming state was. -/
theorem finalCleanup_no_sample_files (srr : String) (s : St) :
    ∀ p ∈ (finalCleanup srr s).files,
      under (sampleRawDir srr) p = false ∧
        under (sampleCleanDir srr) p = false := by
  intro p hp
  unfold finalCleanup at hp
  refine ⟨?_, rmtreeIf_no_under _ _ p hp⟩
  exact rmtreeIf_no_under _ _ p (rmtreeIf_files_subset _ _ p hp)

/-- The `finally` cleanup never touches the QC report tree. -/
theorem finalCleanup_reportPreserved (srr : String) (s : St) :
    reportPreserved s (finalCleanup srr s) := by
  unfold finalCleanup
  refine reportPreserved_trans (reportPreserved_unlinkGlobIf srr s patTmp) ?_
  refine reportPreserved_trans (reportPreserved_unlinkGlobIf srr _ patSra) ?_
  refine reportPreserved_trans
    (reportPreserved_rmtreeIf (d := sampleRawDir srr)
      (fun _ hu => under_sampleRaw_not_report hu) _) ?_
  exact reportPreserved_rmtreeIf (d := sampleCleanDir srr)
    (fun _ hu => under_sampleClean_not_report hu) _


/-! ### Per-stage invariant lemmas for the `try` body -/

@[simp] theorem ctx_ok (c : Ctx) : (BodyRes.ok c).ctx = c := rfl

@[simp] theorem ctx_raised (m : String) (c : Ctx) :
    (BodyRes.raised m c).ctx = c := rfl

theorem findExistingSra_cases {s : St} {srr : String} {p : FPath}
    (h : findExistingSra s srr = some p) :
    p = sampleSraPath srr ∨ p = ncbiSraPath srr := by
  unfold findExistingSra at h
  split at h
  · exact Or.inl (Option.some.inj h).symm
  · split at h
    · exact Or.inr (Option.some.inj h).symm
    · exact absurd h (by simp)

theorem findExistingFastq_under {s : St} {srr : String} {fq : List FPath}
    (h : findExistingFastq s srr = some fq) :
    ∀ p ∈ fq, under (sampleRawDir srr) p = true := by
  simp only [findExistingFastq] at h
  split at h
  · split at h
    · exact absurd h (by simp)
    · intro p hp
      rw [← Option.some.inj h] at hp
      exact globFiles_under hp
  · exact absurd h (by simp)

theorem stepOK_andThen {srr : String} {c : Ctx} {r : BodyRes}
    {f : Ctx → BodyRes} (h1 : stepOK srr c r)
    (h2 : ∀ c', ctxInv srr c' → stepOK srr c' (f c')) :
    stepOK srr c (r.andThen f) := by
  cases r with
  | ok c' =>
      have h := h2 c' h1.1
      exact ⟨h.1, reportPreserved_trans h1.2 h.2⟩
  | raised m c' => exact h1

theorem stageFetch_ok (env : Env) (srr : String) (c : Ctx)
    (h : ctxInv srr c) : stepOK srr c (stageFetch env srr c) := by
  simp only [stageFetch]
  split
  · next p hp =>
      refine ⟨⟨h.1, h.2.1, ?_⟩, reportPreserved_refl _⟩
      rcases findExistingSra_cases hp with h' | h'
      · exact Or.inr (Or.inl h')
      · exact Or.inr (Or.inr h')
  · split
    · exact ⟨⟨h.1, h.2.1, Or.inr (Or.inl rfl)⟩, reportPreserved_of_files_eq rfl⟩
    · split
      · exact ⟨⟨h.1, h.2.1, Or.inr (Or.inl rfl)⟩,
          fun p _ hp => by simp only [ctx_ok, mem_addFiles, logCall_files,
            mkdirP_files]; exact Or.inl hp⟩
      · exact ⟨⟨h.1, h.2.1, Or.inr (Or.inl rfl)⟩,
          fun p _ hp => by simp only [ctx_raised, mem_addFiles, logCall_files,
            mkdirP_files]; exact Or.inl hp⟩

theorem stageConvert_ok (env : Env) (srr : String) (c : Ctx)
    (h : ctxInv srr c) : stepOK srr c (stageConvert env srr c) := by
  simp only [stageConvert]
  split
  · next fq hfq =>
      exact ⟨⟨findExistingFastq_under hfq, h.2.1, h.2.2⟩, reportPreserved_refl _⟩
  · split
    · exact ⟨⟨h.1, h.2.1, h.2.2⟩, reportPreserved_of_files_eq rfl⟩
    · split
      · exact ⟨⟨h.1, h.2.1, h.2.2⟩,
          fun p _ hp => by simp only [ctx_raised, mem_addFiles, logCall_files,
            mkdirP_files]; exact Or.inl hp⟩
      · refine ⟨⟨fun p hp => globFiles_under hp, h.2.1, h.2.2⟩,
          fun p _ hp => by simp only [ctx_ok, mem_addFiles, logCall_files,
            mkdirP_files]; exact Or.inl hp⟩

theorem stageRemoveSra_ok (srr : String) (c : Ctx) (h : ctxInv srr c) :
    stepOK srr c (stageRemoveSra srr c) := by
  have hsra : listPre REPORT_DIR c.sraPath = false := by
    rcases h.2.2 with h' | h' | h'
    · rw [h']; decide
    · rw [h']; exact under_sampleRaw_not_report (sampleSraPath_under_raw srr)
    · rw [h']; exact ncbiSra_not_report srr
  have hrm : ∀ s : St, reportPreserved s
      (if dirExists s (sampleRawDir srr ++ [srr]) then
        rmtree s (sampleRawDir srr ++ [srr]) else s) := by
    intro s
    split
    · exact reportPreserved_rmtree
        (fun p hu => under_sampleRaw_not_report
          (under_trans_underEq (sraDir_listPre srr) hu)) s
    · exact reportPreserved_refl s
  simp only [stageRemoveSra]
  refine ⟨⟨h.1, h.2.1, h.2.2⟩, ?_⟩
  split
  · exact reportPreserved_trans (reportPreserved_delFile hsra c.st) (hrm _)
  · exact hrm _

theorem stageRawQC_ok (env : Env) (srr : String) (c : Ctx)
    (h : ctxInv srr c) : stepOK srr c (stageRawQC env srr c) := by
  simp only [stageRawQC]
  split
  · exact ⟨h, reportPreserved_refl _⟩
  · split
    · exact ⟨⟨h.1, h.2.1, h.2.2⟩, reportPreserved_of_files_eq rfl⟩
    · exact ⟨⟨h.1, h.2.1, h.2.2⟩,
        fun p _ hp => by simp only [ctx_ok, mem_addFiles, logCall_files,
          mkdirP_files]; exact Or.inl hp⟩

theorem fastpOutFile_under (srr : String) (fq : FPath) :
    under (sampleCleanDir srr) (fastpOutFile srr fq) = true :=
  under_append_singleton _ _

theorem stageFastpLoop_ok (env : Env) (srr : String) (l : List FPath) :
    ∀ c : Ctx, ctxInv srr c → stepOK srr c (stageFastpLoop env srr l c) := by
  induction l with
  | nil => exact fun c h => ⟨h, reportPreserved_refl _⟩
  | cons fq rest ih =>
    intro c h
    simp only [stageFastpLoop]
    split
    · split
      · refine ih _ ⟨h.1, ?_, h.2.2⟩
        intro p hp
        rcases List.mem_append.1 hp with hp | hp
        · exact h.2.1 p hp
        · rw [List.mem_singleton.1 hp]
          exact fastpOutFile_under srr fq
      · exact ih _ h
    · split
      · exact ⟨⟨h.1, h.2.1, h.2.2⟩, reportPreserved_of_files_eq rfl⟩
      · next created henv =>
          have hinv : ctxInv srr
              { c with
                st := addFiles (logCall c.st (Call.fastp fq (fastpOutFile srr fq)
                  (fastpHtmlFile srr fq) (fastpJsonFile srr fq))) created
                cfqs := c.cfqs ++ [fastpOutFile srr fq] } := by
            refine ⟨h.1, ?_, h.2.2⟩
            intro p hp
            rcases List.mem_append.1 hp with hp | hp
            · exact h.2.1 p hp
            · rw [List.mem_singleton.1 hp]
              exact fastpOutFile_under srr fq
          have hr := ih _ hinv
          refine ⟨hr.1, reportPreserved_trans ?_ hr.2⟩
          intro p _ hp
          simp only [mem_addFiles, logCall_files]
          exact Or.inl hp

theorem stageFastp_ok (env : Env) (srr : String) (c : Ctx)
    (h : ctxInv srr c) : stepOK srr c (stageFastp env srr c) := by
  simp only [stageFastp]
  have := stageFastpLoop_ok env srr c.fqs
    { c with st := mkdirP c.st (sampleCleanDir srr) } ⟨h.1, h.2.1, h.2.2⟩
  exact ⟨this.1, this.2⟩

theorem stageCollectClean_ok (srr : String) (c : Ctx) (h : ctxInv srr c) :
    stepOK srr c (stageCollectClean srr c) := by
  simp only [stageCollectClean]
  split
  · exact ⟨⟨h.1, fun p hp => globFiles_under hp, h.2.2⟩, reportPreserved_refl _⟩
  · exact ⟨h, reportPreserved_refl _⟩

theorem stageRemoveRaw_ok (srr : String) (c : Ctx) (h : ctxInv srr c) :
    stepOK srr c (stageRemoveRaw c) := by
  simp only [stageRemoveRaw]
  refine ⟨⟨by simp, h.2.1, h.2.2⟩, ?_⟩
  exact reportPreserved_unlinkExisting
    (fun p hp => under_sampleRaw_not_report (h.1 p hp)) c.st

theorem stageCleanQC_ok (env : Env) (srr : String) (c : Ctx)
    (h : ctxInv srr c) : stepOK srr c (stageCleanQC env srr c) := by
  simp only [stageCleanQC]
  split
  · exact ⟨h, reportPreserved_refl _⟩
  · split
    · exact ⟨⟨h.1, h.2.1, h.2.2⟩, reportPreserved_of_files_eq rfl⟩
    · exact ⟨⟨h.1, h.2.1, h.2.2⟩,
        fun p _ hp => by simp only [ctx_ok, mem_addFiles, logCall_files,
          mkdirP_files]; exact Or.inl hp⟩

theorem stageRemoveClean_ok (srr : String) (c : Ctx) (h : ctxInv srr c) :
    stepOK srr c (stageRemoveClean c) := by
  simp only [stageRemoveClean]
  refine ⟨⟨h.1, by simp, h.2.2⟩, ?_⟩
  exact reportPreserved_unlinkExisting
    (fun p hp => under_sampleClean_not_report (h.2.1 p hp)) c.st

/-- The whole `try` body keeps the context invariant and preserves the
QC report tree, under every environment. -/
theorem bodyRun_stepOK (env : Env) (srr : String) (s : St) :
    stepOK srr ⟨s, [], [], []⟩ (bodyRun env srr s) := by
  have h0 : ctxInv srr ⟨s, [], [], []⟩ := ⟨by simp, by simp, Or.inl rfl⟩
  exact stepOK_andThen
    (stepOK_andThen
      (stepOK_andThen
        (stepOK_andThen
          (stepOK_andThen
            (stepOK_andThen
              (stepOK_andThen
                (stepOK_andThen (stageFetch_ok env srr _ h0)
                  (stageConvert_ok env srr))
                (stageRemoveSra_ok srr))
              (stageRawQC_ok env srr))
            (stageFastp_ok env srr))
          (stageCollectClean_ok srr))
        (fun c' hc => stageRemoveRaw_ok srr c' hc))
      (stageCleanQC_ok env srr))
    (fun c' hc => stageRemoveClean_ok srr c' hc)

/-! ### Claim C2: the cleanup invariant -/

/-- C2 (amended): for every sample, every starting filesystem state and
every behavior of the external tools, when the sample does not probe as
already processed (so `process_srr` actually enters its body and ends in
success or failure), after `process_srr` returns no file at all — in
particular no raw or filtered FASTQ file — remains below the sample's
raw or clean directory, every QC report artifact present at entry is
still present, and the outcome is success or failure; the deletion runs
in the `finally` block, so it executes even when an exception propagates
out of a stage. On the skip path (sample already processed) `process_srr`
returns before the `try`/`finally` body and deletes nothing, so a FASTQ
file already on disk at entry remains. -/
theorem cleanup_on_success_and_failure (env : Env) (s : St) (srr : String)
    (h : isSampleProcessed s srr = false) :
    (∀ p ∈ (processSrr env s srr).1.files,
        under (sampleRawDir srr) p = false ∧
          under (sampleCleanDir srr) p = false) ∧
      reportPreserved s (processSrr env s srr).1 ∧
      (processSrr env s srr).2 ≠ Outcome.skipped := by
  have hbody := bodyRun_stepOK env srr s
  simp only [processSrr, h, Bool.false_eq_true, if_false]
  split
  · next c heq =>
      rw [heq] at hbody
      refine ⟨finalCleanup_no_sample_files srr c.st, ?_, by simp⟩
      exact reportPreserved_trans hbody.2 (finalCleanup_reportPreserved srr c.st)
  · next m c heq =>
      rw [heq] at hbody
      refine ⟨finalCleanup_no_sample_files srr _, ?_, by simp⟩
      refine reportPreserved_trans hbody.2 ?_
      refine reportPreserved_trans ?_ (finalCleanup_reportPreserved srr _)
      refine reportPreserved_unlinkExisting ?_ c.st
      intro p hp
      rcases List.mem_append.1 hp with hp | hp
      · exact under_sampleRaw_not_report (hbody.1.1 p hp)
      · exact under_sampleClean_not_report (hbody.1.2.1 p hp)

/-- Witness: on an empty filesystem with well-behaved tools, the sample
is not yet processed and the cleanup conclusion holds. -/
theorem cleanup_on_success_and_failure_witness :
    isSampleProcessed St.empty "SRR1" = false ∧
      ((∀ p ∈ (processSrr env0 St.empty "SRR1").1.files,
          under (sampleRawDir "SRR1") p = false ∧
            under (sampleCleanDir "SRR1") p = false) ∧
        reportPreserved St.empty (processSrr env0 St.empty "SRR1").1 ∧
        (processSrr env0 St.empty "SRR1").2 ≠ Outcome.skipped) :=
  ⟨by decide, cleanup_on_success_and_failure env0 St.empty "SRR1" (by decide)⟩

/-- C2 counterexample: on the skip terminal outcome the claim fails. In
the state left by a crash between the clean-FastQC stage and the
clean-FASTQ deletion (complete reports plus a leftover filtered FASTQ
file), the sample probes as processed, `process_srr` returns `skipped`,
and the sample's filtered FASTQ file is still on disk afterwards. -/
theorem cleanup_invariant_skip_counterexample :
    (processSrr env0 fsLeftover "SRR1").2 = Outcome.skipped ∧
      leftoverFastq ∈ (processSrr env0 fsLeftover "SRR1").1.files ∧
      under (sampleCleanDir "SRR1") leftoverFastq = true ∧
      strEnds (leftoverFastq.getLastD "") ".clean.fastq" = true :=
  ⟨by decide, by decide, by decide, by decide⟩

/-! ### Claim C9: the summary report on an empty result list -/

/-- C9 (amended): on an empty aggregated result list,
`generate_summary_report` first writes the run-level CSV summary (an
empty table — the `to_csv` call precedes the success-rate computation)
and then raises `ZeroDivisionError` while formatting the success rate,
so the text report is not written. -/
theorem summary_report_empty_results :
    (generateSummaryReport []).zeroDivisionRaised = true ∧
      (generateSummaryReport []).csvWritten = true ∧
      (generateSummaryReport []).reportWritten = false := by
  refine ⟨rfl, rfl, rfl⟩

/-- C9 counterexample: the claim asserts that neither the CSV summary
nor the text report is written on an empty result list, but the CSV
summary is written before the division raises. -/
theorem summary_report_empty_csv_counterexample :
    (generateSummaryReport []).csvWritten = true ∧
      (generateSummaryReport []).zeroDivisionRaised = true := ⟨rfl, rfl⟩

/-! ### Claim C3: disk admission control -/

/-- C3 (amended): `BatchProcessor.process_sample` performs no disk
admission control: its behavior is independent of the free disk space
of the working filesystem, it always invokes `fasterq-dump` as its
first external call, and its only terminal statuses are success and
failed — there is no skipped outcome. -/
theorem no_disk_admission_control :
    (∀ (env : BEnv) (acc : String) (v : Nat),
        processSample { env with freeSpaceBytes := v } acc =
          processSample env acc) ∧
      (∀ (env : BEnv) (acc : String),
        "fasterq-dump" ∈ (processSample env acc).2) ∧
      (∀ (env : BEnv) (acc : String),
        (processSample env acc).1.status = BStatus.success ∨
          (processSample env acc).1.status = BStatus.failed) := by
  refine ⟨fun env acc v => rfl, fun env acc => ?_, fun env acc => ?_⟩
  · simp only [processSample]
    split
    · simp
    · split
      · simp
      · split <;> simp
  · simp only [processSample]
    split
    · exact Or.inr rfl
    · split
      · exact Or.inr rfl
      · split
        · exact Or.inr rfl
        · exact Or.inl rfl

/-- C3 counterexample: with zero bytes free on the working filesystem —
below any positive configured minimum free-space threshold —
`process_sample` for accession `A` still invokes `fasterq-dump` and
FastQC and returns a success record rather than a skipped outcome. -/
theorem no_disk_admission_counterexample :
    benv0.freeSpaceBytes = 0 ∧
      (processSample benv0 "A").2 = ["fasterq-dump", "fastqc"] ∧
      (processSample benv0 "A").1.status = BStatus.success :=
  ⟨rfl, by decide, by decide⟩

/-! ### Claim C7: up-front tool verification -/

/-- C7 (amended): `BatchProcessor.verify_tools` probes exactly the three
tools `prefetch`, `fasterq-dump` and `fastqc`: it succeeds iff all three
are on `PATH`, and when any is missing it raises a single `RuntimeError`
listing every missing tool, which aborts the run before any sample is
processed. The absence of `fastp` or `multiqc` is not checked by the
batch pipeline. -/
theorem verify_tools_characterization (avail : String → Bool) :
    (verifyTools avail = .ok () ↔
      (avail "prefetch" = true ∧ avail "fasterq-dump" = true ∧
        avail "fastqc" = true)) ∧
      (∀ m, verifyTools avail = .error m →
        ∀ (env : BEnv) (rows : List String) (batchSize : Nat),
          runPipelineMain avail env rows batchSize = .error m) := by
  constructor
  · cases h1 : avail "prefetch" <;> cases h2 : avail "fasterq-dump" <;>
      cases h3 : avail "fastqc" <;>
      simp [verifyTools, requiredTools, h1, h2, h3, List.filter, joinSep]
  · intro m hm env rows batchSize
    simp only [runPipelineMain, hm]

/-- Witness: with all tools absent, verification fails with one message
listing the three checked tools and the run aborts with no results. -/
theorem verify_tools_characterization_witness :
    runPipelineMain (fun _ => false) benv0 ["A"] 1 =
      .error "Missing tools: prefetch, fasterq-dump, fastqc" :=
  (verify_tools_characterization (fun _ => false)).2
    "Missing tools: prefetch, fasterq-dump, fastqc" (by rfl) benv0 ["A"] 1

/-- C7 counterexample: with `prefetch`, `fasterq-dump` and `fastqc`
present but `fastp` and `multiqc` absent from `PATH`, verification
succeeds and the batch run proceeds to process samples — the absence of
two of the five tools is neither detected up front nor fatal. -/
theorem verify_tools_missing_fastp_counterexample :
    availNoFastp "fastp" = false ∧ availNoFastp "multiqc" = false ∧
      verifyTools availNoFastp = .ok () ∧
      runPipelineMain availNoFastp benv0 ["A"] 1 =
        .ok [(processSample benv0 "A").1] :=
  ⟨rfl, rfl, rfl, by rfl⟩

/-! ### Claim C6: failure isolation -/

theorem append_ne_empty_left {a : String} (y : String) (ha : a.data ≠ []) :
    a ++ y ≠ "" := by
  intro h
  have hd : (a ++ y).data = [] := by rw [h]
  rw [show (a ++ y).data = a.data ++ y.data from rfl] at hd
  exact ha (List.append_eq_nil.mp hd).1

theorem processSample_accession (env : BEnv) (acc : String) :
    (processSample env acc).1.accession = acc := by
  simp only [processSample]
  split
  · rfl
  · split
    · rfl
    · split <;> rfl

theorem processSample_failed_error (env : BEnv) (acc : String) :
    (processSample env acc).1.status = BStatus.failed →
      (processSample env acc).1.error ≠ none := by
  simp only [processSample]
  split
  · intro _; simp
  · split
    · intro _; simp
    · split
      · intro _; simp
      · intro h
        exact absurd h (by simp)

theorem batchResults_cons (env : BEnv) (row : String) (rest : List String) :
    batchResults env (row :: rest) =
      rowResults env row ++ batchResults env rest := rfl

theorem mem_batchResults {env : BEnv} {rows : List String} {r : BSampleResult}
    (h : r ∈ batchResults env rows) :
    ∃ acc, r = (processSample env acc).1 := by
  induction rows with
  | nil => simp [batchResults] at h
  | cons row rest ih =>
      rw [batchResults_cons] at h
      rcases List.mem_append.1 h with h | h
      · rcases List.mem_map.1 h with ⟨a, _, rfl⟩
        exact ⟨a, rfl⟩
      · exact ih h

/-- C6 (amended): a failure of one sample never aborts the batch: every
sample of every row is recorded, in processing order, whatever the
per-sample outcomes; a failed sample always carries an error message
(non-null); the message is non-empty for a non-zero tool exit and for
missing expected output, and equals the exception's `str()` for an
unexpected exception — hence empty exactly when that string is empty. -/
theorem failure_isolation (env : BEnv) (rows : List String) :
    ((batchResults env rows).map (fun r => r.accession) =
        rows.foldr (fun row acc => rowAccessions row ++ acc) []) ∧
      (∀ r ∈ batchResults env rows,
        r.status = BStatus.failed → r.error ≠ none) ∧
      (∀ acc stderr, env.fasterq acc = .err stderr →
        (processSample env acc).1.status = BStatus.failed ∧
          ∃ m, (processSample env acc).1.error = some m ∧ m ≠ "") ∧
      (∀ acc names, env.fasterq acc = .ok names →
        (names.filter fun n => strStarts n acc && strEnds n ".fastq") = [] →
        (processSample env acc).1.status = BStatus.failed ∧
          (processSample env acc).1.error =
            some "No FASTQ files generated") := by
  refine ⟨?_, ?_, ?_, ?_⟩
  · induction rows with
    | nil => rfl
    | cons row rest ih =>
        rw [batchResults_cons, List.map_append, ih, List.foldr_cons]
        congr 1
        rw [rowResults, List.map_map]
        exact (List.map_congr_left fun a _ =>
          processSample_accession env a).trans (List.map_id' _)
  · intro r hr hst
    rcases mem_batchResults hr with ⟨acc, rfl⟩
    exact processSample_failed_error env acc hst
  · intro acc stderr henv
    simp only [processSample, henv]
    refine ⟨rfl, _, rfl, ?_⟩
    exact append_ne_empty_left _ (by decide)
  · intro acc names henv hfilter
    simp only [processSample, henv, hfilter]
    exact ⟨rfl, rfl⟩

/-- Witness for failure isolation on a concrete batch where sample `A`
fails with a non-zero tool exit and sample `B` succeeds. -/
theorem failure_isolation_witness :
    ((batchResults benvToolFail ["A,B"]).map (fun r => r.accession) =
        ["A", "B"]) ∧
      (processSample benvToolFail "A").1.status = BStatus.failed ∧
      (∃ m, (processSample benvToolFail "A").1.error = some m ∧ m ≠ "") ∧
      (processSample benvToolFail "B").1.status = BStatus.success := by
  have h := failure_isolation benvToolFail ["A,B"]
  have hfail := h.2.2.1 "A" "fasterq-dump error" (by rfl)
  refine ⟨?_, hfail.1, hfail.2, by decide⟩
  rw [h.1]
  decide

/-- C6 counterexample: an unexpected exception whose `str()` is the
empty string (e.g. `raise Exception("")` out of the QC-report copy) is
recorded with `status=failed` but an empty — not non-empty — error
field. -/
theorem empty_error_message_counterexample :
    (processSample benvEmptyMsg "A").1.status = BStatus.failed ∧
      (processSample benvEmptyMsg "A").1.error = some "" :=
  ⟨by decide, by decide⟩

/-! ### Claim C4: batch durability -/

theorem batchResults_foldr_init (env : BEnv) (l : List String)
    (init : List BSampleResult) :
    l.foldr (fun row acc => rowResults env row ++ acc) init =
      batchResults env l ++ init := by
  induction l with
  | nil => rfl
  | cons row rest ih =>
      simp only [List.foldr_cons, ih, batchResults_cons, List.append_assoc]

theorem batchResults_append (env : BEnv) (l1 l2 : List String) :
    batchResults env (l1 ++ l2) =
      batchResults env l1 ++ batchResults env l2 := by
  have h : batchResults env (l1 ++ l2) =
      l1.foldr (fun row acc => rowResults env row ++ acc)
        (batchResults env l2) := by
    unfold batchResults
    rw [List.foldr_append]
  rw [h, batchResults_foldr_init]

theorem batchWrites_get (env : BEnv) :
    ∀ (rows : List String) (acc : List BSampleResult) (i : Nat),
      i < rows.length →
      (batchWrites env rows acc).get? i =
        some (acc ++ batchResults env (rows.take (i + 1))) := by
  intro rows
  induction rows with
  | nil => intro acc i h; simp at h
  | cons row rest ih =>
      intro acc i h
      cases i with
      | zero =>
          simp only [batchWrites, List.get?_cons_zero, List.take_succ_cons,
            List.take_zero, batchResults_cons]
          simp [batchResults]
      | succ i =>
          simp only [batchWrites, List.get?_cons_succ]
          rw [ih _ i (by simpa using h)]
          simp only [List.take_succ_cons, batchResults_cons, List.append_assoc]

/-- C4 (amended): the batch result file is rewritten after every input
row — not after every sample; a row's `run_accession` may list several
comma-separated samples. After an abrupt termination that completed `i`
full rows (each followed by its save) plus `j` samples of the next row,
the file on disk holds exactly the results of the first `i` rows, a
prefix in processing order of the full batch results; the `j` results
of the unsaved partial row — at most one row's worth of samples — are
the only ones missing. -/
theorem batch_durability_per_row (env : BEnv) (rows : List String) (i j : Nat)
    (hi : i ≤ rows.length)
    (hj : j ≤ (rowAccessions (rows.getD i "")).length) :
    fileAfterCrash env rows i =
      (if i = 0 then none else some (batchResults env (rows.take i))) ∧
      (∃ t, batchResults env rows = batchResults env (rows.take i) ++ t) ∧
      (completedAtCrash env rows i j).length =
        (batchResults env (rows.take i)).length + j := by
  refine ⟨?_, ?_, ?_⟩
  · unfold fileAfterCrash
    split
    · rfl
    · next hne =>
        have hpos : 1 ≤ i := Nat.one_le_iff_ne_zero.2 hne
        have hlt : i - 1 < rows.length := by omega
        rw [batchWrites_get env rows [] (i - 1) hlt]
        have heq : i - 1 + 1 = i := by omega
        rw [heq, List.nil_append]
  · refine ⟨batchResults env (rows.drop i), ?_⟩
    conv_lhs => rw [← List.take_append_drop i rows]
    exact batchResults_append env _ _
  · unfold completedAtCrash
    rw [List.length_append, List.length_map, List.length_take,
      Nat.min_eq_left hj]

/-- Witness: crash after one fully saved row of a two-row batch. -/
theorem batch_durability_per_row_witness :
    (1 ≤ (["A", "B"] : List String).length ∧
        0 ≤ (rowAccessions ((["A", "B"] : List String).getD 1 "")).length) ∧
      (fileAfterCrash benv0 ["A", "B"] 1 =
        (if 1 = 0 then none else
          some (batchResults benv0 (["A", "B"].take 1))) ∧
        (∃ t, batchResults benv0 ["A", "B"] =
          batchResults benv0 (["A", "B"].take 1) ++ t) ∧
        (completedAtCrash benv0 ["A", "B"] 1 0).length =
          (batchResults benv0 (["A", "B"].take 1)).length + 0) :=
  ⟨⟨by decide, by decide⟩,
    batch_durability_per_row benv0 ["A", "B"] 1 0 (by decide) (by decide)⟩

/-- C4 counterexample: one row `"A,B"` holding two samples. After the
first sample completes and before the row's save, exactly `N = 1`
sample has completed, but the batch result file does not exist — it
does not contain the first `N` records, and a crash there loses one
sample's result even though the file was never written. -/
theorem batch_durability_counterexample :
    rowAccessions "A,B" = ["A", "B"] ∧
      (completedAtCrash benv0 ["A,B"] 0 1).length = 1 ∧
      fileAfterCrash benv0 ["A,B"] 0 = none ∧
      batchResults benv0 ["A,B"] ≠ [] :=
  ⟨by decide, by decide, rfl, by decide⟩

/-! ### Claim C8: batch partitioning -/

theorem numBatches_zero (B : Nat) : numBatches 0 B = 0 := by
  unfold numBatches
  cases B with
  | zero => rfl
  | succ n =>
      have h : 0 + (n + 1) - 1 = n := by omega
      rw [h]
      exact Nat.div_eq_of_lt (by omega)

theorem batchChunks_join_aux (B : Nat) (hB : 0 < B) :
    ∀ (n : Nat) (rows : List String), numBatches rows.length B = n →
      (batchChunks B rows).flatten = rows := by
  intro n
  induction n with
  | zero =>
      intro rows h
      have hlen : rows.length = 0 := by
        by_contra hne
        have h1 : 1 ≤ rows.length := Nat.one_le_iff_ne_zero.2 hne
        have h2 : rows.length + B - 1 < B := by
          have := (Nat.div_eq_zero_iff hB).1 h
          exact this
        omega
      have hnil : rows = [] := List.eq_nil_of_length_eq_zero hlen
      subst hnil
      simp [batchChunks, numBatches_zero]
  | succ n ih =>
      intro rows h
      have hL : 1 ≤ rows.length := by
        by_contra hc
        push_neg at hc
        have h0 : rows.length = 0 := by omega
        rw [h0, numBatches_zero] at h
        exact Nat.noConfusion h
      have hdrop : numBatches (rows.drop B).length B = n := by
        rw [List.length_drop]
        rcases le_or_lt rows.length B with hle | hlt
        · have h1 : rows.length - B = 0 := by omega
          rw [h1, numBatches_zero]
          have h2 : (rows.length + B - 1) / B = 1 :=
            Nat.div_eq_of_lt_le (by omega) (by omega)
          unfold numBatches at h
          rw [h2] at h
          omega
        · have h1 : rows.length - B + B - 1 = rows.length - 1 := by omega
          have h2 : rows.length + B - 1 = rows.length - 1 + B := by omega
          unfold numBatches at h ⊢
          rw [h1]
          rw [h2, Nat.add_div_right _ hB] at h
          omega
      have hstruct : batchChunks B rows =
          rows.take B :: batchChunks B (rows.drop B) := by
        unfold batchChunks
        rw [h, hdrop, List.range_succ_eq_map, List.map_cons, List.map_map]
        congr 1
        · rw [Nat.zero_mul, List.drop_zero]
        · refine List.map_congr_left fun i _ => ?_
          simp only [Function.comp_apply]
          rw [List.drop_drop]
          rw [show i.succ * B = B + i * B from by
            rw [Nat.succ_mul, Nat.add_comm]]
      rw [hstruct, List.flatten_cons, ih _ hdrop, List.take_append_drop]

theorem numBatches_mul_ge (L B : Nat) (hB : 0 < B) :
    L ≤ numBatches L B * B := by
  unfold numBatches
  have h1 := Nat.div_add_mod (L + B - 1) B
  have h2 : (L + B - 1) % B < B := Nat.mod_lt _ hB
  rw [Nat.mul_comm] at h1
  generalize hq : (L + B - 1) / B * B = x at h1 ⊢
  generalize (L + B - 1) % B = r at h1 h2
  omega

theorem numBatches_mul_lt (L B : Nat) (hB : 0 < B) :
    numBatches L B * B < L + B := by
  unfold numBatches
  have h1 := Nat.div_mul_le_self (L + B - 1) B
  generalize hq : (L + B - 1) / B * B = x at h1 ⊢
  omega

theorem foldr_flat_batchResults (env : BEnv) :
    ∀ L : List (List String),
      (L.map (batchResults env)).foldr (· ++ ·) [] =
        batchResults env L.flatten := by
  intro L
  induction L with
  | nil => rfl
  | cons a l ih =>
      simp only [List.map_cons, List.foldr_cons, ih, List.flatten_cons,
        batchResults_append]

/-- C8 (confirmed): for every task list and every `batch_size > 0`,
`main` splits the list into `ceil(L / B)` consecutive batches — the
chunk count `(L + B - 1) / B` satisfies `L ≤ n·B < L + B` — whose
concatenation is exactly the original list (each task covered exactly
once, in order); every chunk has at most `B` tasks and every non-final
chunk exactly `B`; and processing the chunks in order yields exactly
the per-sample results of the whole list in list order. -/
theorem batch_partitioning (env : BEnv) (batchSize : Nat)
    (rows : List String) (hB : 0 < batchSize) :
    (batchChunks batchSize rows).flatten = rows ∧
      (batchChunks batchSize rows).length =
        numBatches rows.length batchSize ∧
      rows.length ≤ numBatches rows.length batchSize * batchSize ∧
      numBatches rows.length batchSize * batchSize <
        rows.length + batchSize ∧
      (∀ c ∈ batchChunks batchSize rows, c.length ≤ batchSize) ∧
      (∀ i, i + 1 < numBatches rows.length batchSize →
        (batchChunks batchSize rows).get? i =
          some ((rows.drop (i * batchSize)).take batchSize) ∧
          ((rows.drop (i * batchSize)).take batchSize).length = batchSize) ∧
      (∀ avail : String → Bool, verifyTools avail = .ok () →
        runPipelineMain avail env rows batchSize =
          .ok (batchResults env rows)) := by
  have hjoin := batchChunks_join_aux batchSize hB
    (numBatches rows.length batchSize) rows rfl
  refine ⟨hjoin, ?_, numBatches_mul_ge _ _ hB, numBatches_mul_lt _ _ hB,
    ?_, ?_, ?_⟩
  · unfold batchChunks
    rw [List.length_map, List.length_range]
  · intro c hc
    rcases List.mem_map.1 hc with ⟨i, _, rfl⟩
    simp [List.length_take]
  · intro i hi
    constructor
    · unfold batchChunks
      rw [List.get?_map, List.get?_range (by omega)]
      rfl
    · rw [List.length_take, List.length_drop]
      have hmul : (i + 2) * batchSize ≤
          numBatches rows.length batchSize * batchSize :=
        Nat.mul_le_mul_right batchSize (by omega)
      have hle : numBatches rows.length batchSize * batchSize ≤
          rows.length + batchSize - 1 := by
        unfold numBatches
        exact Nat.div_mul_le_self _ _
      rw [Nat.add_mul] at hmul
      generalize hx : i * batchSize = x at hmul ⊢
      generalize hy : numBatches rows.length batchSize * batchSize = y
        at hmul hle
      have hxb : batchSize ≤ rows.length - x := by omega
      omega
  · intro avail hok
    unfold runPipelineMain
    rw [hok]
    rw [foldr_flat_batchResults env (batchChunks batchSize rows), hjoin]

/-- Witness: the list `["A", "B", "C"]` with batch size 2 gives two
chunks covering the list in order. -/
theorem batch_partitioning_witness :
    (batchChunks 2 ["A", "B", "C"]).flatten = ["A", "B", "C"] ∧
      (batchChunks 2 ["A", "B", "C"]).length = 2 := by
  have h := batch_partitioning benv0 2 ["A", "B", "C"] (by decide)
  exact ⟨h.1, by rw [h.2.1]; decide⟩

/-! ### Claim C1: the global MultiQC phase -/

theorem bool_eq_of_iff {a b : Bool} (h : a = true ↔ b = true) : a = b := by
  cases a <;> cases b <;> simp_all

theorem getLastD_append_single {α : Type} (l : List α) (x d : α) :
    (l ++ [x]).getLastD d = x := by
  induction l generalizing d with
  | nil => rfl
  | cons a t ih =>
      rw [List.cons_append, List.getLastD_cons]
      exact ih a

theorem directChild_append_single (d : FPath) (x : String) :
    directChild d (d ++ [x]) = true := by
  simp [directChild, listPre_append, List.length_append]

theorem mem_glob_mqreport {s : St} {tn : String} {p : FPath}
    (h : p ∈ globFiles s (REPORT_DIR ++ [tn]) patMultiqcReport) :
    p = REPORT_DIR ++ [tn, "multiqc_report.html"] := by
  rw [mem_globFiles] at h
  obtain ⟨-, hdc, hpat⟩ := h
  simp only [directChild, Bool.and_eq_true, decide_eq_true_eq] at hdc
  obtain ⟨t, rfl⟩ := (listPre_iff _ _).1 hdc.1
  have hlen : t.length = 1 := by
    have := hdc.2
    simp only [List.length_append] at this
    omega
  obtain ⟨x, rfl⟩ : ∃ x, t = [x] := by
    cases t with
    | nil => simp at hlen
    | cons a t' =>
        cases t' with
        | nil => exact ⟨a, rfl⟩
        | cons b t'' => simp at hlen
  have hx : x = "multiqc_report.html" := by
    have := hpat
    rw [getLastD_append_single] at this
    exact of_decide_eq_true this
  rw [hx]
  rfl

theorem report_file_under_tmp (tn : String) :
    under (REPORT_DIR ++ [tn])
      (REPORT_DIR ++ [tn, "multiqc_report.html"]) = true :=
  under_append_singleton (REPORT_DIR ++ [tn]) "multiqc_report.html"

theorem out_ne_report_file (tn onm : String) :
    REPORT_DIR ++ [onm] ≠ REPORT_DIR ++ [tn, "multiqc_report.html"] := by
  intro h
  have := congrArg List.length h
  simp [REPORT_DIR] at this

theorem under_report_sibling_false (tn onm : String) :
    under (REPORT_DIR ++ [tn]) (REPORT_DIR ++ [onm]) = false := by
  have h : (REPORT_DIR ++ [onm]).length = (REPORT_DIR ++ [tn]).length := by
    simp [List.length_append]
  simp [under, h]

theorem depthTwo_out_false (x onm : String) :
    depthTwoChild (REPORT_DIR ++ [x]) (REPORT_DIR ++ [onm]) = false := by
  simp [depthTwoChild, List.length_append, REPORT_DIR]

theorem depthTwo_not_under_sibling {x tn : String} (hne : x ≠ tn) {p : FPath}
    (h : depthTwoChild (REPORT_DIR ++ [x]) p = true) :
    under (REPORT_DIR ++ [tn]) p = false := by
  simp only [depthTwoChild, Bool.and_eq_true] at h
  have h2 : listPre (REPORT_DIR ++ tn :: ([] : FPath)) p = false :=
    under_disjoint hne [] [] h.1
  simp only [under]
  rw [show (REPORT_DIR ++ [tn] : FPath) = REPORT_DIR ++ tn :: [] from rfl, h2]
  rfl

theorem renameAll_nil (out : FPath) (s : St) : renameAll out [] s = s := rfl

theorem renameAll_cons (out f : FPath) (rest : List FPath) (s : St) :
    renameAll out (f :: rest) s =
      renameAll out rest (addFiles (delFile s f) [out]) := rfl

theorem renameAll_calls (out : FPath) (ms : List FPath) (s : St) :
    (renameAll out ms s).calls = s.calls := by
  induction ms generalizing s with
  | nil => rfl
  | cons f rest ih => rw [renameAll_cons, ih]; rfl

theorem renameAll_dirs (out : FPath) (ms : List FPath) (s : St) :
    (renameAll out ms s).dirs = s.dirs := by
  induction ms generalizing s with
  | nil => rfl
  | cons f rest ih => rw [renameAll_cons, ih]; rfl

theorem renameAll_mem_of_const {out r : FPath} (hor : out ≠ r) :
    ∀ (ms : List FPath), ms ≠ [] → (∀ f ∈ ms, f = r) → ∀ (s : St) (p : FPath),
      p ∈ (renameAll out ms s).files ↔
        (p ∈ s.files ∧ p ≠ r) ∨ p = out := by
  intro ms
  induction ms with
  | nil => intro h; exact absurd rfl h
  | cons f rest ih =>
      intro _ hall s p
      have hf : f = r := hall f (List.mem_cons_self f rest)
      subst hf
      rw [renameAll_cons]
      by_cases hrest : rest = []
      · subst hrest
        rw [renameAll_nil]
        simp only [mem_addFiles, mem_delFile, List.mem_singleton]
      · rw [ih hrest (fun g hg => hall g (List.mem_cons_of_mem _ hg)) _ p]
        simp only [mem_addFiles, mem_delFile, List.mem_singleton]
        tauto

theorem rename_rmtree_mem {tn onm : String} {s2 : St} {sfiles created : List FPath}
    (hs2 : ∀ q, q ∈ s2.files ↔ q ∈ sfiles ∨ q ∈ created)
    (hcr : ∀ p ∈ created, under (REPORT_DIR ++ [tn]) p = true) (p : FPath) :
    p ∈ (rmtree (renameAll (REPORT_DIR ++ [onm])
        (globFiles s2 (REPORT_DIR ++ [tn]) patMultiqcReport) s2)
        (REPORT_DIR ++ [tn])).files ↔
      ((p ∈ sfiles ∧ under (REPORT_DIR ++ [tn]) p = false) ∨
        (p = REPORT_DIR ++ [onm] ∧
          (REPORT_DIR ++ [tn, "multiqc_report.html"] ∈ sfiles ∨
            REPORT_DIR ++ [tn, "multiqc_report.html"] ∈ created))) := by
  have hms : ∀ f ∈ globFiles s2 (REPORT_DIR ++ [tn]) patMultiqcReport,
      f = REPORT_DIR ++ [tn, "multiqc_report.html"] :=
    fun f hf => mem_glob_mqreport hf
  have hrut := report_file_under_tmp tn
  have hone := out_ne_report_file tn onm
  have houtu := under_report_sibling_false tn onm
  have hrglob : REPORT_DIR ++ [tn, "multiqc_report.html"] ∈ s2.files →
      REPORT_DIR ++ [tn, "multiqc_report.html"] ∈
        globFiles s2 (REPORT_DIR ++ [tn]) patMultiqcReport := by
    intro hr2
    rw [mem_globFiles]
    refine ⟨hr2, directChild_append_single (REPORT_DIR ++ [tn]) _, ?_⟩
    rw [show (REPORT_DIR ++ [tn, "multiqc_report.html"] : FPath) =
      (REPORT_DIR ++ [tn]) ++ ["multiqc_report.html"] from rfl]
    rw [getLastD_append_single]
    rfl
  by_cases hcase : globFiles s2 (REPORT_DIR ++ [tn]) patMultiqcReport = []
  · rw [hcase, renameAll_nil]
    have hrnot : ¬ (REPORT_DIR ++ [tn, "multiqc_report.html"] ∈ sfiles ∨
        REPORT_DIR ++ [tn, "multiqc_report.html"] ∈ created) := by
      intro hr
      have := hrglob ((hs2 _).2 hr)
      rw [hcase] at this
      cases this
    rw [mem_rmtree]
    constructor
    · rintro ⟨hp2, hnu⟩
      rcases (hs2 p).1 hp2 with hp | hp
      · refine Or.inl ⟨hp, ?_⟩
        cases h' : under (REPORT_DIR ++ [tn]) p
        · rfl
        · exact absurd h' hnu
      · exact absurd (hcr p hp) hnu
    · rintro (⟨hp, hu⟩ | ⟨rfl, hr⟩)
      · exact ⟨(hs2 p).2 (Or.inl hp), by simp [hu]⟩
      · exact absurd hr hrnot
  · have hrmem : REPORT_DIR ++ [tn, "multiqc_report.html"] ∈ s2.files := by
      obtain ⟨f, hf⟩ := List.exists_mem_of_ne_nil _ hcase
      have heq := hms f hf
      rw [heq] at hf
      exact ((mem_globFiles _ _ _ _).1 hf).1
    have hror := (hs2 _).1 hrmem
    rw [mem_rmtree, renameAll_mem_of_const hone _ hcase hms s2 p]
    constructor
    · rintro ⟨⟨hp2, hpr⟩ | rfl, hnu⟩
      · rcases (hs2 p).1 hp2 with hp | hp
        · refine Or.inl ⟨hp, ?_⟩
          cases h' : under (REPORT_DIR ++ [tn]) p
          · rfl
          · exact absurd h' hnu
        · exact absurd (hcr p hp) hnu
      · exact Or.inr ⟨rfl, hror⟩
    · rintro (⟨hp, hu⟩ | ⟨rfl, -⟩)
      · refine ⟨Or.inl ⟨(hs2 p).2 (Or.inl hp), ?_⟩, by simp [hu]⟩
        rintro rfl
        rw [hrut] at hu
        exact Bool.true_eq_false.mp hu
      · exact ⟨Or.inr rfl, by simp [houtu]⟩

theorem mqHalf_cond_false {env : Env} {src : FPath} {tn onm : String} {s : St}
    (h : mqCond s src = false) : mqHalf env src tn onm s = .ok s := by
  simp [mqHalf, h]

theorem mqHalf_ok_inv {env : Env} {src : FPath} {tn onm : String} {s s' : St}
    (h : mqHalf env src tn onm s = .ok s') :
    (mqCond s src = false ∧ s' = s) ∨
      (mqCond s src = true ∧
        ∃ created,
          env (Call.multiqc src (REPORT_DIR ++ [tn])) = .ok created) := by
  simp only [mqHalf] at h
  split at h
  · next hc =>
      split at h
      · exact absurd h (by simp)
      · next created henv => exact Or.inr ⟨hc, created, henv⟩
  · next hc =>
      refine Or.inl ⟨?_, (Except.ok.inj h).symm⟩
      cases hmc : mqCond s src
      · rfl
      · exact absurd hmc hc

theorem mqHalf_cond_true_ok (env : Env) (src : FPath) (tn onm : String)
    (s : St) {created : List FPath}
    (hc : mqCond s src = true)
    (henv : env (Call.multiqc src (REPORT_DIR ++ [tn])) = .ok created)
    (hcr : ∀ p ∈ created, under (REPORT_DIR ++ [tn]) p = true) :
    ∃ s', mqHalf env src tn onm s = .ok s' ∧
      (∀ p, p ∈ s'.files ↔
        ((p ∈ s.files ∧ under (REPORT_DIR ++ [tn]) p = false) ∨
          (p = REPORT_DIR ++ [onm] ∧
            (REPORT_DIR ++ [tn, "multiqc_report.html"] ∈ s.files ∨
              REPORT_DIR ++ [tn, "multiqc_report.html"] ∈ created)))) ∧
      s'.calls = s.calls ++ [Call.multiqc src (REPORT_DIR ++ [tn])] := by
  have hmq : mqHalf env src tn onm s =
      .ok (rmtree (renameAll (REPORT_DIR ++ [onm])
        (globFiles (addFiles (logCall (mkdirP s (REPORT_DIR ++ [tn]))
            (Call.multiqc src (REPORT_DIR ++ [tn]))) created)
          (REPORT_DIR ++ [tn]) patMultiqcReport)
        (addFiles (logCall (mkdirP s (REPORT_DIR ++ [tn]))
            (Call.multiqc src (REPORT_DIR ++ [tn]))) created))
        (REPORT_DIR ++ [tn])) := by
    simp only [mqHalf]
    rw [if_pos hc, henv]
  refine ⟨_, hmq, ?_, ?_⟩
  · intro p
    exact rename_rmtree_mem (fun q => by simp) hcr p
  · rw [rmtree_calls, renameAll_calls]
    rfl

theorem mqCond_ext {s t : St} (h : ∀ p, p ∈ s.files ↔ p ∈ t.files)
    (src : FPath) : mqCond s src = mqCond t src := by
  apply bool_eq_of_iff
  unfold mqCond
  simp only [List.any_eq_true, Bool.and_eq_true]
  constructor
  · rintro ⟨p, hp, hh⟩
    exact ⟨p, (h p).1 hp, hh⟩
  · rintro ⟨p, hp, hh⟩
    exact ⟨p, (h p).2 hp, hh⟩

theorem mqCond_preserved {s s' : St} {tn onm x : String} {φ : Prop}
    (hne : x ≠ tn)
    (hchar : ∀ p, p ∈ s'.files ↔
      ((p ∈ s.files ∧ under (REPORT_DIR ++ [tn]) p = false) ∨
        (p = REPORT_DIR ++ [onm] ∧ φ))) :
    mqCond s' (REPORT_DIR ++ [x]) = mqCond s (REPORT_DIR ++ [x]) := by
  apply bool_eq_of_iff
  unfold mqCond
  simp only [List.any_eq_true, Bool.and_eq_true]
  constructor
  · rintro ⟨p, hp, hdt, hpat⟩
    rcases (hchar p).1 hp with ⟨hps, -⟩ | ⟨rfl, -⟩
    · exact ⟨p, hps, hdt, hpat⟩
    · rw [depthTwo_out_false x onm] at hdt
      exact absurd hdt (by simp)
  · rintro ⟨p, hp, hdt, hpat⟩
    exact ⟨p, (hchar p).2
      (Or.inl ⟨hp, depthTwo_not_under_sibling hne hdt⟩), hdt, hpat⟩

theorem char_absorb {w s1 : St} {tn onm : String} {φ : Prop}
    (hchar : ∀ p, p ∈ w.files ↔
      ((p ∈ s1.files ∧ under (REPORT_DIR ++ [tn]) p = false) ∨
        (p = REPORT_DIR ++ [onm] ∧ φ)))
    (hno : ∀ p ∈ s1.files, under (REPORT_DIR ++ [tn]) p = false)
    (hout : φ → REPORT_DIR ++ [onm] ∈ s1.files) :
    ∀ p, p ∈ w.files ↔ p ∈ s1.files := by
  intro p
  rw [hchar p]
  constructor
  · rintro (⟨hp, -⟩ | ⟨rfl, hφ⟩)
    · exact hp
    · exact hout hφ
  · intro hp
    exact Or.inl ⟨hp, hno p hp⟩

/-! ### The per-sample phase of a second run -/

theorem mkBaseDirs_files (s : St) : (mkBaseDirs s).files = s.files := rfl

theorem mkBaseDirs_calls (s : St) : (mkBaseDirs s).calls = s.calls := rfl

theorem mqCond_mkBaseDirs (s : St) (src : FPath) :
    mqCond (mkBaseDirs s) src = mqCond s src := rfl

theorem fastqcRawSampleDir_length (srr : String) :
    (fastqcRawSampleDir srr).length = 5 := by
  simp [fastqcRawSampleDir, FASTQC_RAW_DIR, REPORT_DIR]

theorem fastqcCleanSampleDir_length (srr : String) :
    (fastqcCleanSampleDir srr).length = 5 := by
  simp [fastqcCleanSampleDir, FASTQC_CLEAN_DIR, REPORT_DIR]

theorem dirExists_mkBaseDirs (s : St) (d : FPath) (hd : d.length = 5) :
    dirExists (mkBaseDirs s) d = dirExists s d := by
  have h1 : RAW_DIR ≠ d := fun h => by rw [← h] at hd; exact absurd hd (by decide)
  have h2 : CLEAN_DIR ≠ d := fun h => by rw [← h] at hd; exact absurd hd (by decide)
  have h3 : REPORT_DIR ≠ d := fun h => by rw [← h] at hd; exact absurd hd (by decide)
  have h4 : FASTQC_RAW_DIR ≠ d := fun h => by
    rw [← h] at hd; exact absurd hd (by decide)
  have h5 : FASTQC_CLEAN_DIR ≠ d := fun h => by
    rw [← h] at hd; exact absurd hd (by decide)
  unfold dirExists
  rw [mkBaseDirs_files]
  have hdirs : ((mkBaseDirs s).dirs.any fun q => q = d) =
      (s.dirs.any fun q => q = d) := by
    simp only [mkBaseDirs, List.foldl_cons, List.foldl_nil, mkdirP,
      List.any_append, List.any_cons, List.any_nil, h1, h2, h3, h4, h5,
      decide_eq_true_eq, Bool.or_false, decide_False]
  rw [hdirs]

theorem hasGlob_mkBaseDirs (s : St) (d : FPath) (pat : String → Bool) :
    hasGlob (mkBaseDirs s) d pat = hasGlob s d pat := rfl

theorem isSampleProcessed_mkBaseDirs (s : St) (srr : String) :
    isSampleProcessed (mkBaseDirs s) srr = isSampleProcessed s srr := by
  unfold isSampleProcessed
  rw [dirExists_mkBaseDirs s _ (fastqcRawSampleDir_length srr),
    dirExists_mkBaseDirs s _ (fastqcCleanSampleDir_length srr),
    hasGlob_mkBaseDirs, hasGlob_mkBaseDirs, hasGlob_mkBaseDirs,
    hasGlob_mkBaseDirs]

theorem processAll_of_processed (env : Env) (srrs : List String) (s : St)
    (h : ∀ srr ∈ srrs, isSampleProcessed s srr = true) :
    processAll env srrs s = s := by
  unfold processAll
  have hf : (srrs.filter fun srr => ¬ isSampleProcessed s srr) = [] := by
    rw [List.filter_eq_nil]
    intro a ha
    simp [h a ha]
  rw [hf]
  rfl

/-- A half of the MultiQC phase re-run on a state whose files agree with
`u`, when `u` already reflects that half's previous run: the half
succeeds, leaves the file set equal to `u`, and performs at most the one
`multiqc` invocation. -/
theorem mqHalf_second (env : Env) (src : FPath) (tn onm : String) (w u : St)
    (hw : ∀ p, p ∈ w.files ↔ p ∈ u.files)
    (hprev : mqCond u src = false ∨
      (mqCond u src = true ∧
        (∀ p ∈ u.files, under (REPORT_DIR ++ [tn]) p = false) ∧
        ∃ C, env (Call.multiqc src (REPORT_DIR ++ [tn])) = .ok C ∧
          (∀ p ∈ C, under (REPORT_DIR ++ [tn]) p = true) ∧
          (REPORT_DIR ++ [tn, "multiqc_report.html"] ∈ C →
            REPORT_DIR ++ [onm] ∈ u.files))) :
    ∃ w', mqHalf env src tn onm w = .ok w' ∧
      (∀ p, p ∈ w'.files ↔ p ∈ u.files) ∧
      (w'.calls = w.calls ∨
        w'.calls = w.calls ++ [Call.multiqc src (REPORT_DIR ++ [tn])]) := by
  have hcw : mqCond w src = mqCond u src := mqCond_ext hw src
  rcases hprev with hfalse | ⟨htrue, hno, C, henv, hcr, hCout⟩
  · have hcf : mqCond w src = false := by rw [hcw, hfalse]
    exact ⟨w, mqHalf_cond_false hcf, hw, Or.inl rfl⟩
  · have hct : mqCond w src = true := by rw [hcw, htrue]
    obtain ⟨w', heq, hchar, hcalls⟩ :=
      mqHalf_cond_true_ok env src tn onm w hct henv hcr
    refine ⟨w', heq, ?_, Or.inr hcalls⟩
    have hrw : REPORT_DIR ++ [tn, "multiqc_report.html"] ∉ w.files := by
      intro hwr
      have h1 := hno _ ((hw _).1 hwr)
      rw [report_file_under_tmp tn] at h1
      exact Bool.true_eq_false.mp h1
    intro p
    rw [hchar p]
    constructor
    · rintro (⟨hp, -⟩ | ⟨rfl, hr⟩)
      · exact (hw p).1 hp
      · rcases hr with hr | hr
        · exact absurd hr hrw
        · exact hCout hr
    · intro hp
      exact Or.inl ⟨(hw p).2 hp, hno p hp⟩

/-- Assembling a full second run from the two halves. -/
theorem run2_assemble (env : Env) (srrs : List String) (s1 : St)
    (hall : ∀ srr ∈ srrs, isSampleProcessed s1 srr = true)
    (hprevR : mqCond s1 FASTQC_RAW_DIR = false ∨
      (mqCond s1 FASTQC_RAW_DIR = true ∧
        (∀ p ∈ s1.files,
          under (REPORT_DIR ++ ["multiqc_raw_global"]) p = false) ∧
        ∃ C, env (Call.multiqc FASTQC_RAW_DIR
            (REPORT_DIR ++ ["multiqc_raw_global"])) = .ok C ∧
          (∀ p ∈ C, under (REPORT_DIR ++ ["multiqc_raw_global"]) p = true) ∧
          (REPORT_DIR ++ ["multiqc_raw_global", "multiqc_report.html"] ∈ C →
            REPORT_DIR ++ ["multiqc_raw_global.html"] ∈ s1.files)))
    (hprevC : mqCond s1 FASTQC_CLEAN_DIR = false ∨
      (mqCond s1 FASTQC_CLEAN_DIR = true ∧
        (∀ p ∈ s1.files,
          under (REPORT_DIR ++ ["multiqc_clean_global"]) p = false) ∧
        ∃ C, env (Call.multiqc FASTQC_CLEAN_DIR
            (REPORT_DIR ++ ["multiqc_clean_global"])) = .ok C ∧
          (∀ p ∈ C, under (REPORT_DIR ++ ["multiqc_clean_global"]) p = true) ∧
          (REPORT_DIR ++ ["multiqc_clean_global", "multiqc_report.html"] ∈ C →
            REPORT_DIR ++ ["multiqc_clean_global.html"] ∈ s1.files))) :
    ∃ s2, runOnce env srrs s1 = .ok s2 ∧
      (∀ p, p ∈ s2.files ↔ p ∈ s1.files) ∧
      (∃ extra, s2.calls = s1.calls ++ extra ∧
        (∀ c ∈ extra, isMultiqcCall c = true) ∧ extra.length ≤ 2) := by
  have hpa : processAll env srrs (mkBaseDirs s1) = mkBaseDirs s1 :=
    processAll_of_processed env srrs (mkBaseDirs s1)
      (fun srr h => by rw [isSampleProcessed_mkBaseDirs]; exact hall srr h)
  obtain ⟨w2, heqR, hw2, hcallsR⟩ :=
    mqHalf_second env FASTQC_RAW_DIR "multiqc_raw_global"
      "multiqc_raw_global.html" (mkBaseDirs s1) s1 (fun p => Iff.rfl) hprevR
  obtain ⟨s2, heqC, hs2, hcallsC⟩ :=
    mqHalf_second env FASTQC_CLEAN_DIR "multiqc_clean_global"
      "multiqc_clean_global.html" w2 s1 hw2 hprevC
  refine ⟨s2, ?_, hs2, ?_⟩
  · simp only [runOnce]
    rw [hpa, heqR]
    exact heqC
  · rcases hcallsR with hcr | hcr <;> rcases hcallsC with hcc | hcc
    · exact ⟨[], by rw [hcc, hcr, mkBaseDirs_calls, List.append_nil],
        by simp, by simp⟩
    · refine ⟨[Call.multiqc FASTQC_CLEAN_DIR
          (REPORT_DIR ++ ["multiqc_clean_global"])],
        by rw [hcc, hcr, mkBaseDirs_calls], ?_, by simp⟩
      intro c hc
      rw [List.mem_singleton] at hc
      subst hc
      rfl
    · refine ⟨[Call.multiqc FASTQC_RAW_DIR
          (REPORT_DIR ++ ["multiqc_raw_global"])],
        by rw [hcc, hcr, mkBaseDirs_calls], ?_, by simp⟩
      intro c hc
      rw [List.mem_singleton] at hc
      subst hc
      rfl
    · refine ⟨[Call.multiqc FASTQC_RAW_DIR
          (REPORT_DIR ++ ["multiqc_raw_global"]),
        Call.multiqc FASTQC_CLEAN_DIR
          (REPORT_DIR ++ ["multiqc_clean_global"])],
        by rw [hcc, hcr, mkBaseDirs_calls, List.append_assoc]; rfl, ?_, by simp⟩
      intro c hc
      rcases List.mem_cons.1 hc with rfl | hc
      · rfl
      · rw [List.mem_singleton] at hc
        subst hc
        rfl

/-- C1 (amended): for every sample list, if a run of the orchestrator
leaves every sample probing as already processed (as a fully successful
run does), then an immediate second run with unchanged tool behavior
succeeds, leaves the on-disk artifacts extensionally identical, and its
only external tool invocations are the global MultiQC regenerations —
at most two `multiqc` calls, and zero per-sample tool invocations. The
original claim of zero external tool invocations fails: the global
MultiQC reports are regenerated unconditionally whenever FastQC reports
are present. -/
theorem idempotent_resume_modulo_multiqc (env : Env) (srrs : List String)
    (s s1 : St) (hconf : MqConfined env)
    (h1 : runOnce env srrs s = .ok s1)
    (hall : ∀ srr ∈ srrs, isSampleProcessed s1 srr = true) :
    ∃ s2, runOnce env srrs s1 = .ok s2 ∧
      (∀ p, p ∈ s2.files ↔ p ∈ s1.files) ∧
      (∃ extra, s2.calls = s1.calls ++ extra ∧
        (∀ c ∈ extra, isMultiqcCall c = true) ∧ extra.length ≤ 2) := by
  simp only [runOnce] at h1
  cases hR : mqHalf env FASTQC_RAW_DIR "multiqc_raw_global"
      "multiqc_raw_global.html" (processAll env srrs (mkBaseDirs s)) with
  | error e =>
      rw [hR] at h1
      have h1' : (Except.error e : Except (String × St) St) = .ok s1 := h1
      exact Except.noConfusion h1'
  | ok sR =>
  rw [hR] at h1
  have hC : mqHalf env FASTQC_CLEAN_DIR "multiqc_clean_global"
      "multiqc_clean_global.html" sR = .ok s1 := h1
  rcases mqHalf_ok_inv hC with ⟨hcC, hs1sR⟩ | ⟨hcC, CC, henvC⟩
  · -- clean half was a no-op: s1 = sR
    rcases mqHalf_ok_inv hR with ⟨hcR, hsRt0⟩ | ⟨hcR, CR, henvR⟩
    · -- raw half also a no-op
      exact run2_assemble env srrs s1 hall
        (Or.inl (by rw [hs1sR, hsRt0]; exact hcR))
        (Or.inl (by rw [hs1sR]; exact hcC))
    · -- raw half ran
      obtain ⟨sR', heqR', hcharR, -⟩ :=
        mqHalf_cond_true_ok env FASTQC_RAW_DIR "multiqc_raw_global"
          "multiqc_raw_global.html" (processAll env srrs (mkBaseDirs s)) hcR
          henvR (hconf _ _ _ henvR)
      have hsR' : sR' = sR := Except.ok.inj (heqR'.symm.trans hR)
      rw [hsR', ← hs1sR] at hcharR
      have hnoR : ∀ p ∈ s1.files,
          under (REPORT_DIR ++ ["multiqc_raw_global"]) p = false := by
        intro p hp
        rcases (hcharR p).1 hp with ⟨-, h⟩ | ⟨rfl, -⟩
        · exact h
        · exact under_report_sibling_false _ _
      have hcondRs1 : mqCond s1 FASTQC_RAW_DIR = true := by
        have hpres : mqCond s1 FASTQC_RAW_DIR =
            mqCond (processAll env srrs (mkBaseDirs s)) FASTQC_RAW_DIR :=
          mqCond_preserved (by decide) hcharR
        rw [hpres]
        exact hcR
      refine run2_assemble env srrs s1 hall
        (Or.inr ⟨hcondRs1, hnoR, CR, henvR, hconf _ _ _ henvR, ?_⟩)
        (Or.inl (by rw [hs1sR]; exact hcC))
      intro hr
      exact (hcharR _).2 (Or.inr ⟨rfl, Or.inr hr⟩)
  · -- clean half ran
    obtain ⟨s1', heqC', hcharC, -⟩ :=
      mqHalf_cond_true_ok env FASTQC_CLEAN_DIR "multiqc_clean_global"
        "multiqc_clean_global.html" sR hcC henvC (hconf _ _ _ henvC)
    have hs1' : s1' = s1 := Except.ok.inj (heqC'.symm.trans hC)
    rw [hs1'] at hcharC
    have hnoC : ∀ p ∈ s1.files,
        under (REPORT_DIR ++ ["multiqc_clean_global"]) p = false := by
      intro p hp
      rcases (hcharC p).1 hp with ⟨-, h⟩ | ⟨rfl, -⟩
      · exact h
      · exact under_report_sibling_false _ _
    have hcondCs1 : mqCond s1 FASTQC_CLEAN_DIR = true := by
      have hpres : mqCond s1 FASTQC_CLEAN_DIR = mqCond sR FASTQC_CLEAN_DIR :=
        mqCond_preserved (by decide) hcharC
      rw [hpres]
      exact hcC
    have hprevC : mqCond s1 FASTQC_CLEAN_DIR = false ∨
        (mqCond s1 FASTQC_CLEAN_DIR = true ∧
          (∀ p ∈ s1.files,
            under (REPORT_DIR ++ ["multiqc_clean_global"]) p = false) ∧
          ∃ C, env (Call.multiqc FASTQC_CLEAN_DIR
              (REPORT_DIR ++ ["multiqc_clean_global"])) = .ok C ∧
            (∀ p ∈ C,
              under (REPORT_DIR ++ ["multiqc_clean_global"]) p = true) ∧
            (REPORT_DIR ++
                ["multiqc_clean_global", "multiqc_report.html"] ∈ C →
              REPORT_DIR ++ ["multiqc_clean_global.html"] ∈ s1.files)) := by
      refine Or.inr ⟨hcondCs1, hnoC, CC, henvC, hconf _ _ _ henvC, ?_⟩
      intro hr
      exact (hcharC _).2 (Or.inr ⟨rfl, Or.inr hr⟩)
    rcases mqHalf_ok_inv hR with ⟨hcR, hsRt0⟩ | ⟨hcR, CR, henvR⟩
    · -- raw half was a no-op
      refine run2_assemble env srrs s1 hall (Or.inl ?_) hprevC
      have hpres : mqCond s1 FASTQC_RAW_DIR = mqCond sR FASTQC_RAW_DIR :=
        mqCond_preserved (by decide) hcharC
      rw [hpres, hsRt0]
      exact hcR
    · -- both halves ran
      obtain ⟨sR', heqR', hcharR, -⟩ :=
        mqHalf_cond_true_ok env FASTQC_RAW_DIR "multiqc_raw_global"
          "multiqc_raw_global.html" (processAll env srrs (mkBaseDirs s)) hcR
          henvR (hconf _ _ _ henvR)
      have hsR' : sR' = sR := Except.ok.inj (heqR'.symm.trans hR)
      rw [hsR'] at hcharR
      have hnoRsR : ∀ p ∈ sR.files,
          under (REPORT_DIR ++ ["multiqc_raw_global"]) p = false := by
        intro p hp
        rcases (hcharR p).1 hp with ⟨-, h⟩ | ⟨rfl, -⟩
        · exact h
        · exact under_report_sibling_false _ _
      have hnoR : ∀ p ∈ s1.files,
          under (REPORT_DIR ++ ["multiqc_raw_global"]) p = false := by
        intro p hp
        rcases (hcharC p).1 hp with ⟨hpsR, -⟩ | ⟨rfl, -⟩
        · exact hnoRsR p hpsR
        · exact under_report_sibling_false _ _
      have hcondRs1 : mqCond s1 FASTQC_RAW_DIR = true := by
        have hpres1 : mqCond s1 FASTQC_RAW_DIR = mqCond sR FASTQC_RAW_DIR :=
          mqCond_preserved (by decide) hcharC
        have hpres2 : mqCond sR FASTQC_RAW_DIR =
            mqCond (processAll env srrs (mkBaseDirs s)) FASTQC_RAW_DIR :=
          mqCond_preserved (by decide) hcharR
        rw [hpres1, hpres2]
        exact hcR
      refine run2_assemble env srrs s1 hall
        (Or.inr ⟨hcondRs1, hnoR, CR, henvR, hconf _ _ _ henvR, ?_⟩) hprevC
      intro hr
      have houtsR : REPORT_DIR ++ ["multiqc_raw_global.html"] ∈ sR.files :=
        (hcharR _).2 (Or.inr ⟨rfl, Or.inr hr⟩)
      exact (hcharC _).2 (Or.inl ⟨houtsR, under_report_sibling_false _ _⟩)

theorem env0_mqConfined : MqConfined env0 := by
  intro ind outd created h p hp
  simp only [env0] at h
  injection h with h
  rw [← h] at hp
  rw [List.mem_singleton] at hp
  rw [hp]
  exact under_append_singleton outd "multiqc_report.html"

/-- Witness: after the fully successful concrete run `st1` on `SRR1`,
the second run keeps the artifacts identical and performs only the two
MultiQC invocations. -/
theorem idempotent_resume_witness :
    ∃ s2, runOnce env0 ["SRR1"] st1 = .ok s2 ∧
      (∀ p, p ∈ s2.files ↔ p ∈ st1.files) ∧
      (∃ extra, s2.calls = st1.calls ++ extra ∧
        (∀ c ∈ extra, isMultiqcCall c = true) ∧ extra.length ≤ 2) :=
  idempotent_resume_modulo_multiqc env0 ["SRR1"] St.empty st1 env0_mqConfined
    (by rfl) (by intro srr h; rw [List.mem_singleton] at h; rw [h]; decide)

/-- C1 counterexample: a fully successful run on `["SRR1"]` (7 tool
invocations; the sample probes as processed afterwards) followed by an
immediate second run. The second run performs 2 external tool
invocations, not zero: the unconditional regeneration of the two global
MultiQC reports. -/
theorem idempotent_resume_counterexample :
    st1.calls.length = 7 ∧
      isSampleProcessed st1 "SRR1" = true ∧
      st2.calls.length = st1.calls.length + 2 ∧
      st2.calls.drop st1.calls.length =
        [Call.multiqc FASTQC_RAW_DIR (REPORT_DIR ++ ["multiqc_raw_global"]),
          Call.multiqc FASTQC_CLEAN_DIR
            (REPORT_DIR ++ ["multiqc_clean_global"])] :=
  ⟨by decide, by decide, by decide, by decide⟩

end Cardiogen
